import Mathlib

/-!
Verification of the usage/pricing and conversation-reconstruction core of the
`claude-daily` repository, as a shallow embedding in Lean 4.

Conventions of the embedding:
* Rust `u64`/`usize` token counters are modelled as `ℕ` (the verified claims do
  not depend on wrap-around behaviour).
* Rust `f64` monetary amounts are modelled as `ℚ`: the claims are about the
  algebraic structure of the cost computation, not about rounding of binary
  floating point.
* Rust `HashMap` values are modelled as association lists with unique keys;
  iteration order of a `HashMap` is unspecified in Rust, so functions that
  iterate a map are parameterised by a list of its entries in an arbitrary
  order.
* JSON values are modelled by records holding exactly the fields the source
  code reads; a field that is absent or has the wrong JSON type is `none`.
-/

namespace ClaudeDaily

/-! ## Pricing (src/usage/pricing.rs) -/

/-- Per-model pricing data (`ModelPricing` in src/usage/pricing.rs).
All costs are per individual token; `none` models an absent field. -/
structure ModelPricing where
  input_cost_per_token : Option ℚ
  output_cost_per_token : Option ℚ
  cache_creation_input_token_cost : Option ℚ
  cache_read_input_token_cost : Option ℚ
  input_cost_per_token_above_200k_tokens : Option ℚ
  output_cost_per_token_above_200k_tokens : Option ℚ
  cache_creation_input_token_cost_above_200k_tokens : Option ℚ
  cache_read_input_token_cost_above_200k_tokens : Option ℚ
deriving Repr, DecidableEq

/-- Token threshold for tiered pricing (`TIERED_THRESHOLD`). -/
def TIERED_THRESHOLD : ℕ := 200000

/-- Fixed provider-prefix candidates (`PROVIDER_PREFIXES`), in priority order. -/
def PROVIDER_PREFIXES : List String :=
  ["anthropic/", "claude-3-5-", "claude-3-", "claude-", "openai/", "azure/",
   "openrouter/openai/"]

/-- Tiered cost computation (`tiered_cost` in src/usage/pricing.rs).
If tokens exceed the 200k threshold and a tiered price exists, tokens below
the threshold use `base_price` and tokens above use `tiered_price`. -/
def tiered_cost (tokens : ℕ) (base_price tiered_price : Option ℚ) : ℚ :=
  if tokens = 0 then 0
  else if TIERED_THRESHOLD < tokens then
    match tiered_price with
    | some tp =>
        (TIERED_THRESHOLD : ℚ) * base_price.getD 0
          + ((tokens - TIERED_THRESHOLD : ℕ) : ℚ) * tp
    | none => (tokens : ℚ) * base_price.getD 0
  else (tokens : ℚ) * base_price.getD 0

/-- Loaded pricing data (`PricingData`); the catalog `HashMap` is modelled as
an association list of its entries in iteration order. -/
structure PricingData where
  models : List (String × ModelPricing)

/-- Case-insensitive substring check: `needle` occurs contiguously in
`haystack` (Rust `str::contains`). -/
def strContainsSub (haystack needle : List Char) : Bool :=
  match haystack with
  | [] => needle.isEmpty
  | _ :: rest => needle.isPrefixOf haystack || strContainsSub rest needle

/-- Fuzzy-match condition from step 3 of `get_model_pricing`: either string is
a case-insensitive substring of the other. -/
def fuzzyMatches (key query : String) : Bool :=
  let keyLower := key.toLower.data
  let queryLower := query.toLower.data
  strContainsSub keyLower queryLower || strContainsSub queryLower keyLower

/-- Step 2 loop of `get_model_pricing`: try each provider prefix in order. -/
def firstPrefixMatch (models : List (String × ModelPricing)) :
    List String → String → Option ModelPricing
  | [], _ => none
  | p :: rest, name =>
    match models.lookup (p ++ name) with
    | some pricing => some pricing
    | none => firstPrefixMatch models rest name

/-- Step 3 loop of `get_model_pricing`: first catalog entry (in iteration
order) whose key fuzzy-matches the query. -/
def fuzzyFind (models : List (String × ModelPricing)) (name : String) :
    Option ModelPricing :=
  match models with
  | [] => none
  | (k, v) :: rest => if fuzzyMatches k name then some v else fuzzyFind rest name

/-- Model-name resolution (`PricingData::get_model_pricing`): direct match,
then provider prefixes, then fuzzy match. -/
def PricingData.get_model_pricing (pd : PricingData) (model_name : String) :
    Option ModelPricing :=
  match pd.models.lookup model_name with
  | some pricing => some pricing
  | none =>
    match firstPrefixMatch pd.models PROVIDER_PREFIXES model_name with
    | some pricing => some pricing
    | none => fuzzyFind pd.models model_name

/-- Total cost for token usage (`PricingData::calculate_cost`): resolves the
model then sums the tiered cost of the four token classes; returns 0 when the
model is not found. -/
def PricingData.calculate_cost (pd : PricingData) (model : String)
    (input_tokens output_tokens cache_creation_tokens cache_read_tokens : ℕ) : ℚ :=
  match pd.get_model_pricing model with
  | none => 0
  | some pricing =>
      tiered_cost input_tokens pricing.input_cost_per_token
        pricing.input_cost_per_token_above_200k_tokens
    + tiered_cost output_tokens pricing.output_cost_per_token
        pricing.output_cost_per_token_above_200k_tokens
    + tiered_cost cache_creation_tokens pricing.cache_creation_input_token_cost
        pricing.cache_creation_input_token_cost_above_200k_tokens
    + tiered_cost cache_read_tokens pricing.cache_read_input_token_cost
        pricing.cache_read_input_token_cost_above_200k_tokens

/-! ## Theorems about the pricing module -/

/-- C2: tiered cost of a count `t` is `200000 * base + (t - 200000) * tiered`
when `t` exceeds the threshold and a tiered rate exists, and `t * base`
otherwise; a count of zero costs zero; and the function is continuous at the
threshold: the cost of exactly 200000 tokens is unaffected by the presence of
a tiered rate, and each token above the threshold adds exactly the tiered
rate. -/
theorem tiered_cost_spec (t : ℕ) (base tiered : Option ℚ) :
    (∀ tp : ℚ, tiered = some tp → TIERED_THRESHOLD < t →
      tiered_cost t base tiered
        = (TIERED_THRESHOLD : ℚ) * base.getD 0 + ((t - TIERED_THRESHOLD : ℕ) : ℚ) * tp)
    ∧ (t ≤ TIERED_THRESHOLD ∨ tiered = none →
        tiered_cost t base tiered = (t : ℚ) * base.getD 0)
    ∧ tiered_cost 0 base tiered = 0
    ∧ (∀ tp : ℚ,
        tiered_cost TIERED_THRESHOLD base (some tp)
          = tiered_cost TIERED_THRESHOLD base none)
    ∧ (∀ (k : ℕ) (tp : ℚ), 0 < k →
        tiered_cost (TIERED_THRESHOLD + k) base (some tp)
          = tiered_cost TIERED_THRESHOLD base (some tp) + (k : ℚ) * tp) := by
  refine ⟨?_, ?_, ?_, ?_, ?_⟩
  · intro tp htp hgt
    subst htp
    have ht0 : t ≠ 0 := by
      intro h; rw [h] at hgt; exact absurd hgt (by simp [TIERED_THRESHOLD])
    simp [tiered_cost, ht0, hgt]
  · intro h
    rcases h with h | h
    · rcases Nat.eq_zero_or_pos t with ht0 | ht0
      · subst ht0; simp [tiered_cost]
      · have hne : t ≠ 0 := by omega
        have : ¬ TIERED_THRESHOLD < t := not_lt.mpr h
        simp [tiered_cost, hne, this]
    · subst h
      rcases Nat.eq_zero_or_pos t with ht0 | ht0
      · subst ht0; simp [tiered_cost]
      · have hne : t ≠ 0 := by omega
        by_cases hgt : TIERED_THRESHOLD < t
        · simp [tiered_cost, hne, hgt]
        · simp [tiered_cost, hne, hgt]
  · simp [tiered_cost]
  · intro tp
    simp [tiered_cost, TIERED_THRESHOLD]
  · intro k tp hk
    have h1 : TIERED_THRESHOLD + k ≠ 0 := by positivity
    have h2 : TIERED_THRESHOLD < TIERED_THRESHOLD + k := by omega
    have h3 : TIERED_THRESHOLD + k - TIERED_THRESHOLD = k := by omega
    have h4 : (TIERED_THRESHOLD : ℕ) ≠ 0 := by simp [TIERED_THRESHOLD]
    simp [tiered_cost, h1, h2, h3, h4]

/-- Concrete instance of `tiered_cost_spec`: 300000 tokens at base rate 3 and
tiered rate 6 cost 200000 * 3 + 100000 * 6. -/
theorem tiered_cost_spec_witness :
    tiered_cost 300000 (some 3) (some 6) = 200000 * 3 + 100000 * 6 := by
  have h := (tiered_cost_spec 300000 (some 3) (some 6)).1 6 rfl
    (by simp [TIERED_THRESHOLD])
  rw [h]
  norm_num [TIERED_THRESHOLD]

/-- C5: when pricing resolution finds no catalog match for a model name, the
computed cost is exactly 0 for every combination of token counts. -/
theorem unknown_model_zero_cost (pd : PricingData) (model : String)
    (h : pd.get_model_pricing model = none) (i o cc cr : ℕ) :
    pd.calculate_cost model i o cc cr = 0 := by
  simp [PricingData.calculate_cost, h]

/-- Concrete instance of `unknown_model_zero_cost`: an empty catalog resolves
no model, and nonzero token counts still cost 0. -/
theorem unknown_model_zero_cost_witness :
    (PricingData.mk []).get_model_pricing "unknown-model-xyz" = none ∧
    (PricingData.mk []).calculate_cost "unknown-model-xyz" 1000000 1000000 5 7 = 0 :=
  ⟨rfl, unknown_model_zero_cost (PricingData.mk []) "unknown-model-xyz" rfl 1000000 1000000 5 7⟩

/-- Auxiliary: the prefix loop computes the first successful lookup over the
prefix list. -/
theorem firstPrefixMatch_eq_findSome (models : List (String × ModelPricing))
    (prefixes : List String) (name : String) :
    firstPrefixMatch models prefixes name
      = prefixes.findSome? (fun p => models.lookup (p ++ name)) := by
  induction prefixes with
  | nil => rfl
  | cons p rest ih =>
    simp only [firstPrefixMatch, List.findSome?_cons]
    cases models.lookup (p ++ name) with
    | none => simpa using ih
    | some pricing => rfl

/-- Auxiliary: the fuzzy loop returns the value of the first entry whose key
fuzzy-matches the query. -/
theorem fuzzyFind_eq_find (models : List (String × ModelPricing)) (name : String) :
    fuzzyFind models name
      = (models.find? (fun kv => fuzzyMatches kv.1 name)).map Prod.snd := by
  induction models with
  | nil => rfl
  | cons kv rest ih =>
    obtain ⟨k, v⟩ := kv
    by_cases h : fuzzyMatches k name
    · simp [fuzzyFind, h, List.find?_cons]
    · simp [fuzzyFind, h, List.find?_cons, ih]

/-- C6: pricing resolution is first-match-wins over (1) exact catalog key,
(2) the fixed provider-prefix candidates in their fixed order, (3) the first
fuzzy substring match in catalog iteration order; in particular an exact
catalog key is always preferred. -/
theorem get_model_pricing_resolution (pd : PricingData) (name : String) :
    pd.get_model_pricing name
      = (pd.models.lookup name).or
          ((PROVIDER_PREFIXES.findSome? (fun p => pd.models.lookup (p ++ name))).or
            ((pd.models.find? (fun kv => fuzzyMatches kv.1 name)).map Prod.snd))
    ∧ (∀ p, pd.models.lookup name = some p → pd.get_model_pricing name = some p) := by
  constructor
  · rw [PricingData.get_model_pricing]
    cases hx : pd.models.lookup name with
    | some pricing => rfl
    | none =>
      rw [firstPrefixMatch_eq_findSome]
      cases hp : PROVIDER_PREFIXES.findSome? (fun p => pd.models.lookup (p ++ name)) with
      | some pricing => rfl
      | none => simp [fuzzyFind_eq_find]
  · intro p hp
    rw [PricingData.get_model_pricing, hp]

/-- Demo pricing record used by concrete witnesses. -/
def demoPricing : ModelPricing :=
  ⟨some 3, some 15, none, none, none, none, none, none⟩

/-- Concrete instance of `get_model_pricing_resolution`: a catalog whose key
equals the query resolves to that entry. -/
theorem get_model_pricing_resolution_witness :
    (PricingData.mk [("claude-sonnet-4-5", demoPricing)]).get_model_pricing
      "claude-sonnet-4-5" = some demoPricing :=
  (get_model_pricing_resolution (PricingData.mk [("claude-sonnet-4-5", demoPricing)])
    "claude-sonnet-4-5").2 demoPricing rfl

/-! ## Usage scanner: per-file extraction (src/usage/scanner.rs) -/

/-- The `message.usage` object of a log record: the four token-class fields,
each possibly absent. -/
structure MsgUsage where
  input_tokens : Option ℕ
  output_tokens : Option ℕ
  cache_creation_input_tokens : Option ℕ
  cache_read_input_tokens : Option ℕ
deriving Repr, DecidableEq

/-- The `message` object of a log record, restricted to the fields the
scanner reads. -/
structure SMessage where
  model : Option String
  usage : Option MsgUsage
deriving Repr, DecidableEq

/-- One decoded line of a session JSONL file, restricted to the fields the
scanner reads (`type`, `message`, `timestamp`). Blank lines and lines that
fail JSON decoding are skipped by the reader and do not appear in the list. -/
structure SRecord where
  rtype : Option String
  message : Option SMessage
  timestamp : Option String
deriving Repr, DecidableEq

/-- Token usage data for a single session (`SessionUsage` in
src/usage/types.rs); `model_calls` is an association list with unique keys. -/
structure SessionUsage where
  session_id : String
  input_tokens : ℕ
  output_tokens : ℕ
  cache_creation_tokens : ℕ
  cache_read_tokens : ℕ
  total_cost_usd : ℚ
  model_calls : List (String × ℕ)
  first_timestamp : Option String
deriving Repr, DecidableEq

/-- Increment a model's call counter, inserting the key if absent
(`*usage.model_calls.entry(model).or_insert(0) += 1`). -/
def bumpCall (calls : List (String × ℕ)) (model : String) : List (String × ℕ) :=
  match calls with
  | [] => [(model, 1)]
  | (k, v) :: rest =>
    if k = model then (k, v + 1) :: rest else (k, v) :: bumpCall rest model

/-- Loop body of `parse_session_file`: process one decoded record, updating
the accumulated `SessionUsage` and the `found_any` flag. -/
def processRecord (pd : PricingData) (st : SessionUsage × Bool) (r : SRecord) :
    SessionUsage × Bool :=
  if r.rtype = some "assistant" then
    match r.message with
    | none => st
    | some msg =>
      let u1 :=
        match msg.model with
        | some m => { st.1 with model_calls := bumpCall st.1.model_calls m }
        | none => st.1
      let step :=
        match msg.usage with
        | some mu =>
          let input := mu.input_tokens.getD 0
          let output := mu.output_tokens.getD 0
          let cache_creation := mu.cache_creation_input_tokens.getD 0
          let cache_read := mu.cache_read_input_tokens.getD 0
          let msg_model := msg.model.getD "claude-sonnet"
          ({ u1 with
              input_tokens := u1.input_tokens + input,
              output_tokens := u1.output_tokens + output,
              cache_creation_tokens := u1.cache_creation_tokens + cache_creation,
              cache_read_tokens := u1.cache_read_tokens + cache_read,
              total_cost_usd := u1.total_cost_usd
                + pd.calculate_cost msg_model input output cache_creation cache_read },
            true)
        | none => (u1, st.2)
      let u3 :=
        match step.1.first_timestamp, r.timestamp with
        | none, some ts => { step.1 with first_timestamp := some ts }
        | _, _ => step.1
      (u3, step.2)
  else st

/-- Initial accumulator of `parse_session_file`
(`SessionUsage { session_id, ..Default::default() }`). -/
def initSession (session_id : String) : SessionUsage :=
  ⟨session_id, 0, 0, 0, 0, 0, [], none⟩

/-- Per-file extraction (`parse_session_file`): folds the decoded records and
returns `none` when no record carried a usage object. The scanner is
parameterised by the loaded pricing catalog. -/
def parse_session_file (pd : PricingData) (records : List SRecord)
    (session_id : String) : Option SessionUsage :=
  let res := records.foldl (processRecord pd) (initSession session_id, false)
  if res.2 then some res.1 else none

/-- A record contributes to the session counters iff it has type `assistant`
and carries a `message.usage` object. -/
def contributes (r : SRecord) : Bool :=
  decide (r.rtype = some "assistant") && (r.message.bind SMessage.usage).isSome

/-- The value of one token-class field of a record, with absent fields (at any
level) counting as zero. -/
def recTokens (f : MsgUsage → Option ℕ) (r : SRecord) : ℕ :=
  match r.message.bind SMessage.usage with
  | some mu => (f mu).getD 0
  | none => 0

/-- Auxiliary: one step of the scanner fold adds the record's token fields to
the counters exactly when the record contributes, and ors the flag with
`contributes`. -/
theorem processRecord_counters (pd : PricingData) (st : SessionUsage × Bool)
    (r : SRecord) :
    (processRecord pd st r).1.input_tokens
        = st.1.input_tokens + (if contributes r then recTokens MsgUsage.input_tokens r else 0)
    ∧ (processRecord pd st r).1.output_tokens
        = st.1.output_tokens + (if contributes r then recTokens MsgUsage.output_tokens r else 0)
    ∧ (processRecord pd st r).1.cache_creation_tokens
        = st.1.cache_creation_tokens
          + (if contributes r then recTokens MsgUsage.cache_creation_input_tokens r else 0)
    ∧ (processRecord pd st r).1.cache_read_tokens
        = st.1.cache_read_tokens
          + (if contributes r then recTokens MsgUsage.cache_read_input_tokens r else 0)
    ∧ (processRecord pd st r).2 = (st.2 || contributes r) := by
  by_cases ht : r.rtype = some "assistant"
  · cases hm : r.message with
    | none =>
      simp [processRecord, ht, hm, contributes, recTokens]
    | some msg =>
      cases hu : msg.usage with
      | none =>
        cases hmo : msg.model with
        | none =>
          simp only [processRecord, ht, if_pos, hm, hmo, hu]
          cases hft : st.1.first_timestamp with
          | none =>
            cases hts : r.timestamp with
            | none => simp [contributes, hm, hu, recTokens]
            | some ts => simp [contributes, hm, hu, recTokens]
          | some ts0 => simp [contributes, hm, hu, recTokens]
        | some m =>
          simp only [processRecord, ht, if_pos, hm, hmo, hu]
          cases hft : st.1.first_timestamp with
          | none =>
            cases hts : r.timestamp with
            | none => simp [contributes, hm, hu, recTokens]
            | some ts => simp [contributes, hm, hu, recTokens]
          | some ts0 => simp [contributes, hm, hu, recTokens]
      | some mu =>
        cases hmo : msg.model with
        | none =>
          simp only [processRecord, ht, if_pos, hm, hmo, hu]
          cases hts : r.timestamp with
          | none => simp [contributes, hm, hu, recTokens, ht]
          | some ts =>
            cases hft : st.1.first_timestamp with
            | none => simp [contributes, hm, hu, recTokens, ht]
            | some ts0 => simp [contributes, hm, hu, recTokens, ht]
        | some m =>
          simp only [processRecord, ht, if_pos, hm, hmo, hu]
          cases hts : r.timestamp with
          | none => simp [contributes, hm, hu, recTokens, ht]
          | some ts =>
            cases hft : st.1.first_timestamp with
            | none => simp [contributes, hm, hu, recTokens, ht]
            | some ts0 => simp [contributes, hm, hu, recTokens, ht]
  · simp [processRecord, ht, contributes]

/-- Auxiliary: the scanner fold accumulates, over any starting state, the sums
of the contributing records' token fields, and the flag records whether any
record contributed. -/
theorem foldl_processRecord_counters (pd : PricingData) (records : List SRecord) :
    ∀ st : SessionUsage × Bool,
    (records.foldl (processRecord pd) st).1.input_tokens
        = st.1.input_tokens
          + ((records.filter contributes).map (recTokens MsgUsage.input_tokens)).sum
    ∧ (records.foldl (processRecord pd) st).1.output_tokens
        = st.1.output_tokens
          + ((records.filter contributes).map (recTokens MsgUsage.output_tokens)).sum
    ∧ (records.foldl (processRecord pd) st).1.cache_creation_tokens
        = st.1.cache_creation_tokens
          + ((records.filter contributes).map (recTokens MsgUsage.cache_creation_input_tokens)).sum
    ∧ (records.foldl (processRecord pd) st).1.cache_read_tokens
        = st.1.cache_read_tokens
          + ((records.filter contributes).map (recTokens MsgUsage.cache_read_input_tokens)).sum
    ∧ (records.foldl (processRecord pd) st).2 = (st.2 || records.any contributes) := by
  induction records with
  | nil => intro st; simp
  | cons r rest ih =>
    intro st
    obtain ⟨h1, h2, h3, h4, h5⟩ := processRecord_counters pd st r
    obtain ⟨g1, g2, g3, g4, g5⟩ := ih (processRecord pd st r)
    refine ⟨?_, ?_, ?_, ?_, ?_⟩
    · simp only [List.foldl_cons, g1, h1]
      by_cases hc : contributes r <;> simp [hc, List.filter_cons, Nat.add_assoc]
    · simp only [List.foldl_cons, g2, h2]
      by_cases hc : contributes r <;> simp [hc, List.filter_cons, Nat.add_assoc]
    · simp only [List.foldl_cons, g3, h3]
      by_cases hc : contributes r <;> simp [hc, List.filter_cons, Nat.add_assoc]
    · simp only [List.foldl_cons, g4, h4]
      by_cases hc : contributes r <;> simp [hc, List.filter_cons, Nat.add_assoc]
    · simp only [List.foldl_cons, g5, h5]
      by_cases hc : contributes r <;> simp [hc, Bool.or_assoc]

/-- C4: only `assistant` records carrying a `message.usage` object contribute;
each session counter of a returned record equals the sum of the corresponding
per-record fields (missing fields counting as zero); the result is `none`
exactly when no record contributes; and the counters are independent of
record processing order. -/
theorem parse_session_file_spec (pd : PricingData) (records : List SRecord)
    (sid : String) :
    (parse_session_file pd records sid = none ↔ records.filter contributes = [])
    ∧ (∀ u, parse_session_file pd records sid = some u →
        u.input_tokens
            = ((records.filter contributes).map (recTokens MsgUsage.input_tokens)).sum
        ∧ u.output_tokens
            = ((records.filter contributes).map (recTokens MsgUsage.output_tokens)).sum
        ∧ u.cache_creation_tokens
            = ((records.filter contributes).map
                (recTokens MsgUsage.cache_creation_input_tokens)).sum
        ∧ u.cache_read_tokens
            = ((records.filter contributes).map
                (recTokens MsgUsage.cache_read_input_tokens)).sum)
    ∧ (∀ records₂, records₂.Perm records →
        (parse_session_file pd records₂ sid).map SessionUsage.input_tokens
          = (parse_session_file pd records sid).map SessionUsage.input_tokens
        ∧ (parse_session_file pd records₂ sid).map SessionUsage.output_tokens
          = (parse_session_file pd records sid).map SessionUsage.output_tokens
        ∧ (parse_session_file pd records₂ sid).map SessionUsage.cache_creation_tokens
          = (parse_session_file pd records sid).map SessionUsage.cache_creation_tokens
        ∧ (parse_session_file pd records₂ sid).map SessionUsage.cache_read_tokens
          = (parse_session_file pd records sid).map SessionUsage.cache_read_tokens) := by
  have key : ∀ (rs : List SRecord),
      (parse_session_file pd rs sid = none ↔ rs.filter contributes = [])
      ∧ (∀ u, parse_session_file pd rs sid = some u →
          u.input_tokens = ((rs.filter contributes).map (recTokens MsgUsage.input_tokens)).sum
          ∧ u.output_tokens = ((rs.filter contributes).map (recTokens MsgUsage.output_tokens)).sum
          ∧ u.cache_creation_tokens
              = ((rs.filter contributes).map (recTokens MsgUsage.cache_creation_input_tokens)).sum
          ∧ u.cache_read_tokens
              = ((rs.filter contributes).map (recTokens MsgUsage.cache_read_input_tokens)).sum) := by
    intro rs
    obtain ⟨h1, h2, h3, h4, h5⟩ :=
      foldl_processRecord_counters pd rs (initSession sid, false)
    have hany : (rs.foldl (processRecord pd) (initSession sid, false)).2
        = rs.any contributes := by simpa using h5
    constructor
    · rw [parse_session_file]
      constructor
      · intro hn
        by_cases ha : (rs.foldl (processRecord pd) (initSession sid, false)).2
        · rw [if_pos ha] at hn; exact absurd hn (by simp)
        · rw [hany] at ha
          simpa [List.filter_eq_nil_iff, List.any_eq_true] using ha
      · intro hf
        have : rs.any contributes = false := by
          rw [List.any_eq_false]
          intro x hx
          have := List.filter_eq_nil_iff.mp hf x hx
          simpa using this
        rw [hany] at h5 ⊢
        simp [this]
    · intro u hu
      rw [parse_session_file] at hu
      by_cases ha : (rs.foldl (processRecord pd) (initSession sid, false)).2
      · rw [if_pos ha] at hu
        have hu' : (rs.foldl (processRecord pd) (initSession sid, false)).1 = u :=
          Option.some_injective _ hu
        rw [← hu']
        exact ⟨by simpa [initSession] using h1, by simpa [initSession] using h2,
          by simpa [initSession] using h3, by simpa [initSession] using h4⟩
      · rw [if_neg ha] at hu; exact absurd hu (by simp)
  refine ⟨(key records).1, (key records).2, ?_⟩
  intro records₂ hperm
  have hfperm : (records₂.filter contributes).Perm (records.filter contributes) :=
    hperm.filter contributes
  have hnil : records₂.filter contributes = [] ↔ records.filter contributes = [] := by
    constructor
    · intro h; exact List.Perm.eq_nil (h ▸ hfperm).symm
    · intro h; exact List.Perm.eq_nil (h ▸ hfperm)
  have hsum : ∀ f : MsgUsage → Option ℕ,
      ((records₂.filter contributes).map (recTokens f)).sum
        = ((records.filter contributes).map (recTokens f)).sum := by
    intro f; exact (hfperm.map (recTokens f)).sum_eq
  cases h2 : parse_session_file pd records₂ sid with
  | none =>
    have : parse_session_file pd records sid = none := by
      rw [(key records).1, ← hnil, ← (key records₂).1]; exact h2
    simp [h2, this]
  | some u2 =>
    cases h1 : parse_session_file pd records sid with
    | none =>
      have : records.filter contributes = [] := (key records).1.mp h1
      have h2n : parse_session_file pd records₂ sid = none := by
        rw [(key records₂).1, hnil]; exact this
      rw [h2n] at h2; exact absurd h2 (by simp)
    | some u1 =>
      obtain ⟨a1, a2, a3, a4⟩ := (key records₂).2 u2 h2
      obtain ⟨b1, b2, b3, b4⟩ := (key records).2 u1 h1
      refine ⟨?_, ?_, ?_, ?_⟩ <;>
        simp [a1, a2, a3, a4, b1, b2, b3, b4, hsum]

/-- Concrete instance of `parse_session_file_spec`: a single contributing
record with 100 input tokens yields a session record with 100 input tokens. -/
theorem parse_session_file_spec_witness :
    (parse_session_file (PricingData.mk [])
        [⟨some "assistant", some ⟨none, some ⟨some 100, some 20, none, none⟩⟩, none⟩]
        "s1").map SessionUsage.input_tokens = some 100 := by
  have h := (parse_session_file_spec (PricingData.mk [])
    [⟨some "assistant", some ⟨none, some ⟨some 100, some 20, none, none⟩⟩, none⟩] "s1").2.2
    [⟨some "assistant", some ⟨none, some ⟨some 100, some 20, none, none⟩⟩, none⟩]
    (List.Perm.refl _)
  rcases hp : parse_session_file (PricingData.mk [])
      [⟨some "assistant", some ⟨none, some ⟨some 100, some 20, none, none⟩⟩, none⟩] "s1" with
    _ | u
  · exact absurd ((parse_session_file_spec (PricingData.mk []) _ "s1").1.mp hp)
      (by simp [contributes])
  · have := ((parse_session_file_spec (PricingData.mk []) _ "s1").2.1) u hp
    simp [this.1, contributes, recTokens]

/-- C10: an `assistant` record with a usage object but no model field is
priced with the hardcoded fallback model name `claude-sonnet` and adds no
model-call entry; conversely an `assistant` record with a model but no usage
object increments `model_calls` and leaves every token counter and the cost
unchanged. -/
theorem fallback_model_spec (pd : PricingData) (st : SessionUsage × Bool)
    (r : SRecord) (msg : SMessage) (ht : r.rtype = some "assistant")
    (hm : r.message = some msg) :
    (∀ mu, msg.usage = some mu → msg.model = none →
      (processRecord pd st r).1.total_cost_usd
          = st.1.total_cost_usd
            + pd.calculate_cost "claude-sonnet" (mu.input_tokens.getD 0)
                (mu.output_tokens.getD 0) (mu.cache_creation_input_tokens.getD 0)
                (mu.cache_read_input_tokens.getD 0)
      ∧ (processRecord pd st r).1.model_calls = st.1.model_calls)
    ∧ (∀ m, msg.model = some m → msg.usage = none →
      (processRecord pd st r).1.model_calls = bumpCall st.1.model_calls m
      ∧ (processRecord pd st r).1.input_tokens = st.1.input_tokens
      ∧ (processRecord pd st r).1.output_tokens = st.1.output_tokens
      ∧ (processRecord pd st r).1.cache_creation_tokens = st.1.cache_creation_tokens
      ∧ (processRecord pd st r).1.cache_read_tokens = st.1.cache_read_tokens
      ∧ (processRecord pd st r).1.total_cost_usd = st.1.total_cost_usd) := by
  constructor
  · intro mu hu hmo
    simp only [processRecord, ht, if_pos, hm, hmo, hu]
    cases hts : r.timestamp with
    | none => simp
    | some ts =>
      cases hft : st.1.first_timestamp with
      | none => simp
      | some ts0 => simp
  · intro m hmo hu
    simp only [processRecord, ht, if_pos, hm, hmo, hu]
    cases hft : st.1.first_timestamp with
    | none =>
      cases hts : r.timestamp with
      | none => simp
      | some ts => simp
    | some ts0 => simp

/-- Concrete instance of `fallback_model_spec`: a usage-bearing record without
a model leaves `model_calls` empty. -/
theorem fallback_model_spec_witness :
    (processRecord (PricingData.mk []) (initSession "s1", false)
        ⟨some "assistant", some ⟨none, some ⟨some 5, none, none, none⟩⟩, none⟩).1.model_calls
      = [] := by
  have h := (fallback_model_spec (PricingData.mk []) (initSession "s1", false)
    ⟨some "assistant", some ⟨none, some ⟨some 5, none, none, none⟩⟩, none⟩
    ⟨none, some ⟨some 5, none, none, none⟩⟩ rfl rfl).1
    ⟨some 5, none, none, none⟩ rfl rfl
  exact h.2

/-! ## Usage aggregation (src/usage/scanner.rs `aggregate_usage`) -/

/-- Aggregated usage for a single day (`DailyUsage` in src/usage/types.rs;
the internal `DailyUsageAccum` has the same fields). -/
structure DailyUsage where
  date : String
  input_tokens : ℕ
  output_tokens : ℕ
  cache_creation_tokens : ℕ
  cache_read_tokens : ℕ
  total_cost_usd : ℚ
  session_count : ℕ
deriving Repr, DecidableEq

/-- Model usage distribution entry (`ModelUsageCount` in src/usage/types.rs). -/
structure ModelUsageCount where
  model : String
  count : ℕ
  total_cost_usd : ℚ
deriving Repr, DecidableEq

/-- Global usage summary (`UsageSummary` in src/usage/types.rs). -/
structure UsageSummary where
  total_input_tokens : ℕ
  total_output_tokens : ℕ
  total_cache_creation_tokens : ℕ
  total_cache_read_tokens : ℕ
  total_cost_usd : ℚ
  total_sessions : ℕ
  model_distribution : List ModelUsageCount
  daily_usage : List DailyUsage
deriving Repr, DecidableEq

/-- Date extraction (`extract_date_from_timestamp`): the first 10 characters
of an ISO 8601 timestamp, validated to look like `YYYY-MM-DD`. -/
def extract_date_from_timestamp (ts : String) : Option String :=
  if 10 ≤ ts.data.length then
    let date := ts.data.take 10
    if (date.get? 4 == some '-') && (date.get? 7 == some '-') then
      some (String.mk date)
    else none
  else none

/-- The date a session is bucketed under, derived from its first timestamp. -/
def sessionDate (u : SessionUsage) : Option String :=
  u.first_timestamp.bind extract_date_from_timestamp

/-- Whether a session passes the optional date allow-list filter (the skip
logic at the top of the `aggregate_usage` loop). -/
def includedB (date_filter : Option (List String)) (u : SessionUsage) : Bool :=
  match date_filter with
  | none => true
  | some dates =>
    match sessionDate u with
    | some d => dates.contains d
    | none => false

/-- Total number of model calls recorded in a session
(`usage.model_calls.values().sum()`). -/
def totalCalls (u : SessionUsage) : ℕ := (u.model_calls.map Prod.snd).sum

/-- Update of the per-model accumulator map `model_counts`: add `count` calls
and `share` cost to the model's entry, inserting it if absent. -/
def addModelCount (mc : List (String × ℕ × ℚ)) (model : String) (count : ℕ)
    (share : ℚ) : List (String × ℕ × ℚ) :=
  match mc with
  | [] => [(model, count, share)]
  | (k, c, cost) :: rest =>
    if k = model then (k, c + count, cost + share) :: rest
    else (k, c, cost) :: addModelCount rest model count share

/-- Update of the per-day accumulator map `daily_map`: add the session's
counters to its date's entry, inserting the entry if absent. -/
def addDaily (dm : List (String × DailyUsage)) (date : String) (u : SessionUsage) :
    List (String × DailyUsage) :=
  match dm with
  | [] => [(date, ⟨date, u.input_tokens, u.output_tokens, u.cache_creation_tokens,
                  u.cache_read_tokens, u.total_cost_usd, 1⟩)]
  | (k, d) :: rest =>
    if k = date then
      (k, { d with
        input_tokens := d.input_tokens + u.input_tokens,
        output_tokens := d.output_tokens + u.output_tokens,
        cache_creation_tokens := d.cache_creation_tokens + u.cache_creation_tokens,
        cache_read_tokens := d.cache_read_tokens + u.cache_read_tokens,
        total_cost_usd := d.total_cost_usd + u.total_cost_usd,
        session_count := d.session_count + 1 }) :: rest
    else (k, d) :: addDaily rest date u

/-- Accumulator of the `aggregate_usage` loop. -/
structure AggAcc where
  total_input : ℕ
  total_output : ℕ
  total_cache_creation : ℕ
  total_cache_read : ℕ
  total_cost : ℚ
  total_sessions : ℕ
  model_counts : List (String × ℕ × ℚ)
  daily_map : List (String × DailyUsage)

/-- Loop body of `aggregate_usage`: skip sessions rejected by the date
filter, otherwise add the session's counters, apportion its cost over its
models by call-count ratio, and bucket it under its date. -/
def processSession (date_filter : Option (List String)) (acc : AggAcc)
    (u : SessionUsage) : AggAcc :=
  if includedB date_filter u then
    let acc1 := { acc with
      total_input := acc.total_input + u.input_tokens,
      total_output := acc.total_output + u.output_tokens,
      total_cache_creation := acc.total_cache_creation + u.cache_creation_tokens,
      total_cache_read := acc.total_cache_read + u.cache_read_tokens,
      total_cost := acc.total_cost + u.total_cost_usd,
      total_sessions := acc.total_sessions + 1 }
    let tc := totalCalls u
    let acc2 := { acc1 with
      model_counts := u.model_calls.foldl
        (fun mc kv => addModelCount mc kv.1 kv.2
          (if 0 < tc then u.total_cost_usd * ((kv.2 : ℚ) / (tc : ℚ)) else 0))
        acc1.model_counts }
    match sessionDate u with
    | some d => { acc2 with daily_map := addDaily acc2.daily_map d u }
    | none => acc2
  else acc

/-- Initial accumulator of `aggregate_usage`. -/
def initAgg : AggAcc := ⟨0, 0, 0, 0, 0, 0, [], []⟩

/-- Aggregation over per-session records (`aggregate_usage`): fold the
sessions (in the map's unspecified iteration order), then sort the model
distribution by descending call count and the daily breakdown by ascending
date. -/
def aggregate_usage (session_usages : List SessionUsage)
    (date_filter : Option (List String)) : UsageSummary :=
  let acc := session_usages.foldl (processSession date_filter) initAgg
  let model_distribution :=
    (acc.model_counts.map (fun kv => ModelUsageCount.mk kv.1 kv.2.1 kv.2.2)).mergeSort
      (fun a b => decide (b.count ≤ a.count))
  let daily_usage :=
    (acc.daily_map.map Prod.snd).mergeSort (fun a b => decide (a.date ≤ b.date))
  ⟨acc.total_input, acc.total_output, acc.total_cache_creation, acc.total_cache_read,
   acc.total_cost, acc.total_sessions, model_distribution, daily_usage⟩

/-- Auxiliary: one aggregation step updates the global totals exactly when the
session passes the date filter, and leaves them unchanged otherwise. -/
theorem processSession_totals (date_filter : Option (List String)) (acc : AggAcc)
    (u : SessionUsage) :
    (processSession date_filter acc u).total_input
        = acc.total_input + (if includedB date_filter u then u.input_tokens else 0)
    ∧ (processSession date_filter acc u).total_output
        = acc.total_output + (if includedB date_filter u then u.output_tokens else 0)
    ∧ (processSession date_filter acc u).total_cache_creation
        = acc.total_cache_creation
          + (if includedB date_filter u then u.cache_creation_tokens else 0)
    ∧ (processSession date_filter acc u).total_cache_read
        = acc.total_cache_read + (if includedB date_filter u then u.cache_read_tokens else 0)
    ∧ (processSession date_filter acc u).total_cost
        = acc.total_cost + (if includedB date_filter u then u.total_cost_usd else 0)
    ∧ (processSession date_filter acc u).total_sessions
        = acc.total_sessions + (if includedB date_filter u then 1 else 0) := by
  by_cases hinc : includedB date_filter u
  · cases hd : sessionDate u with
    | none => simp [processSession, hinc, hd]
    | some d => simp [processSession, hinc, hd]
  · simp [processSession, hinc]

/-- Auxiliary: the aggregation fold accumulates the totals of the sessions
that pass the date filter. -/
theorem foldl_processSession_totals (date_filter : Option (List String))
    (sessions : List SessionUsage) :
    ∀ acc : AggAcc,
    (sessions.foldl (processSession date_filter) acc).total_input
        = acc.total_input
          + ((sessions.filter (includedB date_filter)).map SessionUsage.input_tokens).sum
    ∧ (sessions.foldl (processSession date_filter) acc).total_output
        = acc.total_output
          + ((sessions.filter (includedB date_filter)).map SessionUsage.output_tokens).sum
    ∧ (sessions.foldl (processSession date_filter) acc).total_cache_creation
        = acc.total_cache_creation
          + ((sessions.filter (includedB date_filter)).map SessionUsage.cache_creation_tokens).sum
    ∧ (sessions.foldl (processSession date_filter) acc).total_cache_read
        = acc.total_cache_read
          + ((sessions.filter (includedB date_filter)).map SessionUsage.cache_read_tokens).sum
    ∧ (sessions.foldl (processSession date_filter) acc).total_cost
        = acc.total_cost
          + ((sessions.filter (includedB date_filter)).map SessionUsage.total_cost_usd).sum
    ∧ (sessions.foldl (processSession date_filter) acc).total_sessions
        = acc.total_sessions + (sessions.filter (includedB date_filter)).length := by
  induction sessions with
  | nil => intro acc; simp
  | cons u rest ih =>
    intro acc
    obtain ⟨h1, h2, h3, h4, h5, h6⟩ := processSession_totals date_filter acc u
    obtain ⟨g1, g2, g3, g4, g5, g6⟩ := ih (processSession date_filter acc u)
    by_cases hinc : includedB date_filter u
    · refine ⟨?_, ?_, ?_, ?_, ?_, ?_⟩ <;>
        simp [g1, g2, g3, g4, g5, g6, h1, h2, h3, h4, h5, h6, hinc,
          List.filter_cons, Nat.add_assoc, add_assoc, Nat.add_comm]
    · refine ⟨?_, ?_, ?_, ?_, ?_, ?_⟩ <;>
        simp [g1, g2, g3, g4, g5, g6, h1, h2, h3, h4, h5, h6, hinc, List.filter_cons]

/-- C8: the aggregate totals (four token classes, cost, session count) are the
sums over exactly the sessions whose derived date passes the optional date
allow-list — all sessions when no filter is given, sessions with no derivable
date excluded whenever a filter is active — and the daily breakdown is sorted
ascending by date. -/
theorem aggregate_usage_spec (sessions : List SessionUsage)
    (date_filter : Option (List String)) :
    (aggregate_usage sessions date_filter).total_input_tokens
        = ((sessions.filter (includedB date_filter)).map SessionUsage.input_tokens).sum
    ∧ (aggregate_usage sessions date_filter).total_output_tokens
        = ((sessions.filter (includedB date_filter)).map SessionUsage.output_tokens).sum
    ∧ (aggregate_usage sessions date_filter).total_cache_creation_tokens
        = ((sessions.filter (includedB date_filter)).map SessionUsage.cache_creation_tokens).sum
    ∧ (aggregate_usage sessions date_filter).total_cache_read_tokens
        = ((sessions.filter (includedB date_filter)).map SessionUsage.cache_read_tokens).sum
    ∧ (aggregate_usage sessions date_filter).total_cost_usd
        = ((sessions.filter (includedB date_filter)).map SessionUsage.total_cost_usd).sum
    ∧ (aggregate_usage sessions date_filter).total_sessions
        = (sessions.filter (includedB date_filter)).length
    ∧ (date_filter = none → ∀ u, includedB date_filter u = true)
    ∧ (∀ dates u, date_filter = some dates → sessionDate u = none →
        includedB date_filter u = false)
    ∧ List.Sorted (fun a b : DailyUsage => a.date ≤ b.date)
        (aggregate_usage sessions date_filter).daily_usage := by
  obtain ⟨h1, h2, h3, h4, h5, h6⟩ :=
    foldl_processSession_totals date_filter sessions initAgg
  refine ⟨?_, ?_, ?_, ?_, ?_, ?_, ?_, ?_, ?_⟩
  · simpa [aggregate_usage, initAgg] using h1
  · simpa [aggregate_usage, initAgg] using h2
  · simpa [aggregate_usage, initAgg] using h3
  · simpa [aggregate_usage, initAgg] using h4
  · simpa [aggregate_usage, initAgg] using h5
  · simpa [aggregate_usage, initAgg] using h6
  · intro h u; subst h; rfl
  · intro dates u h hd; subst h; simp [includedB, hd]
  · have : (aggregate_usage sessions date_filter).daily_usage
        = (((sessions.foldl (processSession date_filter) initAgg).daily_map).map
            Prod.snd).mergeSort (fun a b => decide (a.date ≤ b.date)) := rfl
    rw [this]
    exact List.Pairwise.imp (fun h => of_decide_eq_true h)
      (List.sorted_mergeSort
        (fun a b c hab hbc => by
          simp only [decide_eq_true_eq] at hab hbc ⊢
          exact le_trans hab hbc)
        (fun a b => by simpa using le_total a.date b.date)
        (((sessions.foldl (processSession date_filter) initAgg).daily_map).map Prod.snd))

/-- Total cost attributed to a model in the accumulator map (the cost
component of its entry; stated as a sum over all entries with that key, which
coincides with the entry's value because keys are unique). -/
def mcCost (mc : List (String × ℕ × ℚ)) (m : String) : ℚ :=
  ((mc.filter (fun kv => kv.1 == m)).map (fun kv => kv.2.2)).sum

/-- Total cost reported for a model in the final distribution. -/
def distCost (dist : List ModelUsageCount) (m : String) : ℚ :=
  ((dist.filter (fun e => e.model == m)).map ModelUsageCount.total_cost_usd).sum

/-- Number of calls a session recorded for one model. -/
def callCount (u : SessionUsage) (m : String) : ℕ :=
  ((u.model_calls.filter (fun kv => kv.1 == m)).map Prod.snd).sum

/-- Auxiliary: unfolding of `mcCost` over a cons cell. -/
theorem mcCost_cons (k : String) (c : ℕ) (q : ℚ) (rest : List (String × ℕ × ℚ))
    (m : String) :
    mcCost ((k, c, q) :: rest) m = (if k = m then q else 0) + mcCost rest m := by
  by_cases h : k = m <;> simp [mcCost, List.filter_cons, h]

/-- Auxiliary: `addModelCount` adds the share to exactly the given model's
entry and leaves every other model's cost unchanged. -/
theorem addModelCount_mcCost (mc : List (String × ℕ × ℚ)) (model : String)
    (count : ℕ) (share : ℚ) (m : String) :
    mcCost (addModelCount mc model count share) m
      = mcCost mc m + (if model = m then share else 0) := by
  induction mc with
  | nil =>
    by_cases h : model = m <;> simp [addModelCount, mcCost, List.filter_cons, h]
  | cons kv rest ih =>
    obtain ⟨k, c, q⟩ := kv
    by_cases hk : k = model
    · rw [show addModelCount ((k, c, q) :: rest) model count share
          = (k, c + count, q + share) :: rest from by simp [addModelCount, hk]]
      rw [mcCost_cons, mcCost_cons]
      by_cases hm : k = m
      · have hmod : model = m := hk.symm.trans hm
        simp only [hm, if_pos, hmod]
        ring
      · have hmod : ¬ model = m := fun h => hm (hk.trans h)
        simp [hm, hmod]
    · rw [show addModelCount ((k, c, q) :: rest) model count share
          = (k, c, q) :: addModelCount rest model count share from by
            simp [addModelCount, hk]]
      rw [mcCost_cons, ih, mcCost_cons]
      ring

/-- Auxiliary: keys of `addModelCount` are the old keys plus the new model. -/
theorem addModelCount_keys_mem (mc : List (String × ℕ × ℚ)) (model : String)
    (count : ℕ) (share : ℚ) (x : String) :
    x ∈ (addModelCount mc model count share).map Prod.fst
      ↔ x ∈ mc.map Prod.fst ∨ x = model := by
  induction mc with
  | nil => simp [addModelCount]
  | cons kv rest ih =>
    obtain ⟨k, c, q⟩ := kv
    by_cases hk : k = model
    · rw [show addModelCount ((k, c, q) :: rest) model count share
          = (k, c + count, q + share) :: rest from by simp [addModelCount, hk]]
      simp only [List.map_cons, List.mem_cons]
      constructor
      · rintro (h | h)
        · exact Or.inl (Or.inl h)
        · exact Or.inl (Or.inr h)
      · rintro ((h | h) | h)
        · exact Or.inl h
        · exact Or.inr h
        · exact Or.inl (h.trans hk.symm)
    · rw [show addModelCount ((k, c, q) :: rest) model count share
          = (k, c, q) :: addModelCount rest model count share from by
            simp [addModelCount, hk]]
      simp only [List.map_cons, List.mem_cons, ih]
      tauto

/-- Auxiliary: `addModelCount` preserves uniqueness of map keys. -/
theorem addModelCount_keys_nodup (mc : List (String × ℕ × ℚ)) (model : String)
    (count : ℕ) (share : ℚ) (h : (mc.map Prod.fst).Nodup) :
    ((addModelCount mc model count share).map Prod.fst).Nodup := by
  induction mc with
  | nil => simp [addModelCount]
  | cons kv rest ih =>
    obtain ⟨k, c, q⟩ := kv
    simp only [List.map_cons, List.nodup_cons] at h
    by_cases hk : k = model
    · rw [show addModelCount ((k, c, q) :: rest) model count share
          = (k, c + count, q + share) :: rest from by simp [addModelCount, hk]]
      simp only [List.map_cons, List.nodup_cons]
      exact h
    · rw [show addModelCount ((k, c, q) :: rest) model count share
          = (k, c, q) :: addModelCount rest model count share from by
            simp [addModelCount, hk]]
      simp only [List.map_cons, List.nodup_cons]
      refine ⟨?_, ih h.2⟩
      intro hmem
      rcases (addModelCount_keys_mem rest model count share k).mp hmem with hx | hx
      · exact h.1 hx
      · exact hk hx

/-- Auxiliary: the per-session inner fold over `model_calls` adds, to each
model's cost slot, the session cost times that model's share of the call
count. -/
theorem foldCalls_mcCost (cost : ℚ) (tc : ℕ) (m : String) :
    ∀ (calls : List (String × ℕ)) (mc : List (String × ℕ × ℚ)),
    mcCost (calls.foldl
        (fun mc' kv => addModelCount mc' kv.1 kv.2
          (if 0 < tc then cost * ((kv.2 : ℚ) / (tc : ℚ)) else 0)) mc) m
      = mcCost mc m
        + (if 0 < tc then
            cost * ((((calls.filter (fun kv => kv.1 == m)).map Prod.snd).sum : ℚ)
              / (tc : ℚ))
          else 0) := by
  intro calls
  induction calls with
  | nil =>
    intro mc
    by_cases htc : 0 < tc <;> simp [htc]
  | cons kv rest ih =>
    intro mc
    simp only [List.foldl_cons]
    rw [ih]
    rw [addModelCount_mcCost]
    by_cases hm : kv.1 = m
    · subst hm
      by_cases htc : 0 < tc
      · simp only [htc, if_pos, List.filter_cons, beq_self_eq_true, if_true,
          List.map_cons, List.sum_cons]
        push_cast
        rw [add_assoc]
        congr 1
        rw [← mul_add, div_add_div_same]
      · simp [htc]
    · have hm' : ¬ (kv.1 == m) = true := by simpa using hm
      simp only [List.filter_cons, hm', if_false, if_neg hm, add_zero]
      by_cases htc : 0 < tc
      · simp [htc, add_assoc, add_comm]
      · simp [htc]

/-- Auxiliary: one aggregation step adds, to each model's cost slot, the
session's cost-by-call-ratio share when the session is included, and nothing
otherwise. The guarded share equals the unguarded ratio because a session
with zero recorded calls contributes zero either way. -/
theorem processSession_mcCost (date_filter : Option (List String)) (acc : AggAcc)
    (u : SessionUsage) (m : String) :
    mcCost (processSession date_filter acc u).model_counts m
      = mcCost acc.model_counts m
        + (if includedB date_filter u then
            u.total_cost_usd * ((callCount u m : ℚ) / (totalCalls u : ℚ))
          else 0) := by
  by_cases hinc : includedB date_filter u
  · have hmc : (processSession date_filter acc u).model_counts
        = u.model_calls.foldl
            (fun mc kv => addModelCount mc kv.1 kv.2
              (if 0 < totalCalls u then
                u.total_cost_usd * ((kv.2 : ℚ) / (totalCalls u : ℚ))
              else 0))
            acc.model_counts := by
      cases hd : sessionDate u with
      | none => simp [processSession, hinc, hd]
      | some d => simp [processSession, hinc, hd]
    rw [hmc, foldCalls_mcCost]
    by_cases htc : 0 < totalCalls u
    · simp [htc, hinc, callCount]
    · have h0 : totalCalls u = 0 := by omega
      simp [htc, hinc, h0]
  · simp [processSession, hinc]

/-- Auxiliary: the aggregation fold accumulates, per model, the apportioned
cost over the sessions that pass the date filter. -/
theorem foldl_processSession_mcCost (date_filter : Option (List String))
    (m : String) :
    ∀ (sessions : List SessionUsage) (acc : AggAcc),
    mcCost ((sessions.foldl (processSession date_filter) acc).model_counts) m
      = mcCost acc.model_counts m
        + ((sessions.filter (includedB date_filter)).map
            (fun u => u.total_cost_usd * ((callCount u m : ℚ) / (totalCalls u : ℚ)))).sum := by
  intro sessions
  induction sessions with
  | nil => intro acc; simp
  | cons u rest ih =>
    intro acc
    simp only [List.foldl_cons]
    rw [ih, processSession_mcCost]
    by_cases hinc : includedB date_filter u
    · simp [hinc, List.filter_cons, add_assoc]
    · simp [hinc, List.filter_cons]

/-- Auxiliary: one aggregation step preserves uniqueness of the model keys. -/
theorem processSession_keys_nodup (date_filter : Option (List String))
    (acc : AggAcc) (u : SessionUsage)
    (h : (acc.model_counts.map Prod.fst).Nodup) :
    ((processSession date_filter acc u).model_counts.map Prod.fst).Nodup := by
  by_cases hinc : includedB date_filter u
  · have hmc : (processSession date_filter acc u).model_counts
        = u.model_calls.foldl
            (fun mc kv => addModelCount mc kv.1 kv.2
              (if 0 < totalCalls u then
                u.total_cost_usd * ((kv.2 : ℚ) / (totalCalls u : ℚ))
              else 0))
            acc.model_counts := by
      cases hd : sessionDate u with
      | none => simp [processSession, hinc, hd]
      | some d => simp [processSession, hinc, hd]
    rw [hmc]
    clear hmc
    induction u.model_calls generalizing acc with
    | nil => exact h
    | cons kv rest ih2 =>
      simp only [List.foldl_cons]
      have step := addModelCount_keys_nodup acc.model_counts kv.1 kv.2
        (if 0 < totalCalls u then u.total_cost_usd * ((kv.2 : ℚ) / (totalCalls u : ℚ)) else 0) h
      exact ih2 ⟨acc.total_input, acc.total_output, acc.total_cache_creation,
        acc.total_cache_read, acc.total_cost, acc.total_sessions,
        addModelCount acc.model_counts kv.1 kv.2
          (if 0 < totalCalls u then u.total_cost_usd * ((kv.2 : ℚ) / (totalCalls u : ℚ)) else 0),
        acc.daily_map⟩ step
  · simpa [processSession, hinc] using h

/-- C9: in the model distribution produced by `aggregate_usage`, models occur
at most once, and each model's reported cost is the sum, over the included
sessions, of the session's total cost multiplied by the model's share of the
session's call count — an apportionment by call-count ratio (a session that
did not use the model contributes a zero share). -/
theorem model_distribution_apportionment (sessions : List SessionUsage)
    (date_filter : Option (List String)) (m : String) :
    ((aggregate_usage sessions date_filter).model_distribution.map
        ModelUsageCount.model).Nodup
    ∧ distCost (aggregate_usage sessions date_filter).model_distribution m
        = ((sessions.filter (includedB date_filter)).map
            (fun u => u.total_cost_usd * ((callCount u m : ℚ) / (totalCalls u : ℚ)))).sum := by
  have hnodup : ∀ (ss : List SessionUsage) (acc : AggAcc),
      (acc.model_counts.map Prod.fst).Nodup →
      (((ss.foldl (processSession date_filter) acc).model_counts).map Prod.fst).Nodup := by
    intro ss
    induction ss with
    | nil => intro acc h; exact h
    | cons u rest ih =>
      intro acc h
      exact ih _ (processSession_keys_nodup date_filter acc u h)
  have hX : ((sessions.foldl (processSession date_filter) initAgg).model_counts.map
      Prod.fst).Nodup := hnodup sessions initAgg (by simp [initAgg])
  have hdist : (aggregate_usage sessions date_filter).model_distribution
      = (((sessions.foldl (processSession date_filter) initAgg).model_counts).map
          (fun kv => ModelUsageCount.mk kv.1 kv.2.1 kv.2.2)).mergeSort
          (fun a b => decide (b.count ≤ a.count)) := rfl
  have hperm : ((aggregate_usage sessions date_filter).model_distribution).Perm
      (((sessions.foldl (processSession date_filter) initAgg).model_counts).map
        (fun kv => ModelUsageCount.mk kv.1 kv.2.1 kv.2.2)) := by
    rw [hdist]; exact List.mergeSort_perm _ _
  constructor
  · have h1 := hperm.map ModelUsageCount.model
    refine h1.symm.nodup ?_
    rw [List.map_map]
    simpa using hX
  · have hfil := hperm.filter (fun e => e.model == m)
    have hsum := (hfil.map ModelUsageCount.total_cost_usd).sum_eq
    rw [distCost, hsum]
    rw [List.filter_map, List.map_map]
    have hmc0 := foldl_processSession_mcCost date_filter m sessions initAgg
    have hinit : mcCost initAgg.model_counts m = 0 := by simp [initAgg, mcCost]
    rw [hinit, zero_add] at hmc0
    rw [← hmc0, mcCost]
    rfl

/-- Concrete instance of `model_distribution_apportionment`: with one session
of cost 1/100 whose calls all went to one model, that model's reported cost is
the whole session cost. -/
theorem model_distribution_apportionment_witness :
    distCost (aggregate_usage
        [⟨"s1", 1000, 500, 0, 0, 1/100, [("claude-sonnet-4-5", 2)],
          some "2026-02-05T10:00:00Z"⟩] none).model_distribution
      "claude-sonnet-4-5" = 1/100 := by
  have h := (model_distribution_apportionment
    [⟨"s1", 1000, 500, 0, 0, 1/100, [("claude-sonnet-4-5", 2)],
      some "2026-02-05T10:00:00Z"⟩] none "claude-sonnet-4-5").2
  rw [h]
  norm_num [includedB, callCount, totalCalls]

/-- Demo session record used by concrete aggregation witnesses. -/
def demoSession : SessionUsage :=
  ⟨"s1", 1000, 500, 0, 0, 1/100, [("claude-sonnet-4-5", 2)],
   some "2026-02-05T10:00:00Z"⟩

/-- Concrete instance of `aggregate_usage_spec`: one unfiltered session is
counted with its token totals. -/
theorem aggregate_usage_spec_witness :
    (aggregate_usage [demoSession] none).total_input_tokens = 1000
    ∧ (aggregate_usage [demoSession] none).total_sessions = 1 := by
  obtain ⟨h1, _, _, _, _, h6, _⟩ := aggregate_usage_spec [demoSession] none
  constructor
  · rw [h1]; simp [includedB, demoSession]
  · rw [h6]; simp [includedB, demoSession]

/-! ## Conversation reconstruction (src/server/handlers.rs) -/

/-- JSON values carried by a `tool_use` block's `input` field. -/
inductive JsonVal
  | str (s : String)
  | num (n : ℤ)
  | bool (b : Bool)
  | obj (fields : List (String × JsonVal))
  | arr (items : List JsonVal)
  | null
deriving Repr

mutual

/-- Deep truncation of JSON string leaves (`truncate_json_value`): every
string value in the tree is capped at `max_str_len` characters, with a
trailing ellipsis when truncated. -/
def truncate_json_value (max_str_len : ℕ) : JsonVal → JsonVal
  | .str s =>
    if max_str_len < s.data.length then
      .str (String.mk (s.data.take max_str_len) ++ "...")
    else .str s
  | .obj fields => .obj (truncateFields max_str_len fields)
  | .arr items => .arr (truncateItems max_str_len items)
  | .num n => .num n
  | .bool b => .bool b
  | .null => .null

/-- Pointwise truncation of the values of a JSON object's fields. -/
def truncateFields (max_str_len : ℕ) : List (String × JsonVal) → List (String × JsonVal)
  | [] => []
  | (k, v) :: rest => (k, truncate_json_value max_str_len v) :: truncateFields max_str_len rest

/-- Pointwise truncation of a JSON array's items. -/
def truncateItems (max_str_len : ℕ) : List JsonVal → List JsonVal
  | [] => []
  | v :: rest => truncate_json_value max_str_len v :: truncateItems max_str_len rest

end

/-- Character-count truncation of a string (`truncate_text_str`). -/
def truncate_text_str (text : String) (max_len : ℕ) : String :=
  if text.data.length ≤ max_len then text
  else String.mk (text.data.take max_len) ++ "..."

/-- Rust `str::trim` modelled on the character list: strip leading and
trailing whitespace. -/
def trimChars (s : List Char) : List Char :=
  (((s.dropWhile Char.isWhitespace).reverse).dropWhile Char.isWhitespace).reverse

/-- One element of a `tool_result` block's `content` array (`type` and `text`
fields are all the source reads). -/
structure TRInner where
  btype : String
  text : Option String
deriving Repr

/-- The `content` field of a `tool_result` block: a string, an array of inner
blocks, or anything else (including absent). -/
inductive TRContent
  | str (s : String)
  | arr (blocks : List TRInner)
  | other
deriving Repr

/-- Extraction of display text from a `tool_result` block
(`extract_tool_result_text`): a string content is truncated to 500 chars; an
array's `text`-typed elements are joined with newlines and truncated;
anything else yields the empty string. -/
def extract_tool_result_text (c : TRContent) : String :=
  match c with
  | .str s => truncate_text_str s 500
  | .arr blocks =>
    let texts := blocks.filterMap (fun b => if b.btype = "text" then b.text else none)
    if texts.isEmpty then "" else truncate_text_str (String.intercalate "\n" texts) 500
  | .other => ""

/-- One element of a record's content array, restricted to the fields the
reconstruction reads. `btype` is the `type` field with absent or non-string
modelled as `""` (the source's `unwrap_or("")`). -/
structure InBlock where
  btype : String
  text : Option String
  id : Option String
  name : Option String
  input : Option JsonVal
  tool_use_id : Option String
  rcontent : TRContent
deriving Repr

/-- The resolved content of a record: the source reads `message.content` and
falls back to the top-level `content`; `missing` models absent or
non-string-non-array content. -/
inductive ContentVal
  | str (s : String)
  | arr (blocks : List InBlock)
  | missing
deriving Repr

/-- One decoded line of a transcript JSONL file. Blank and undecodable lines
are skipped by the reader and do not appear. -/
structure TEntry where
  etype : Option String
  role : Option String
  timestamp : Option String
  content : ContentVal
deriving Repr

/-- Discriminator resolution: `type` field, then `role` field, then `""`. -/
def entryType (e : TEntry) : String := (e.etype.or e.role).getD ""

/-- A content block of a reconstructed message (`ConversationContentBlock` in
src/server/dto.rs). -/
inductive ConversationContentBlock
  | Text (text : String)
  | ToolUse (tool_use_id : String) (name : String) (input : JsonVal)
  | ToolResult (tool_use_id : String) (content : String)
deriving Repr

/-- A reconstructed conversation message (`ConversationMessage` in
src/server/dto.rs). -/
structure ConversationMessage where
  role : String
  content : List ConversationContentBlock
  timestamp : Option String
deriving Repr

/-- Insert-or-overwrite into the tool-results map
(`HashMap::insert` keyed by `tool_use_id`). -/
def rmInsert (m : List (String × String)) (k v : String) : List (String × String) :=
  match m with
  | [] => [(k, v)]
  | (k0, v0) :: rest =>
    if k0 = k then (k0, v) :: rest else (k0, v0) :: rmInsert rest k v

/-- Remove a key from the tool-results map (the deletion half of
`HashMap::remove`). -/
def rmErase (m : List (String × String)) (k : String) : List (String × String) :=
  match m with
  | [] => []
  | (k0, v0) :: rest => if k0 = k then rest else (k0, v0) :: rmErase rest k

/-- Lookup in the tool-results map (the query half of `HashMap::remove`). -/
def rmLookup (m : List (String × String)) (k : String) : Option String :=
  match m with
  | [] => none
  | (k0, v0) :: rest => if k0 = k then some v0 else rmLookup rest k

/-- State of the first reconstruction pass: completed messages, the
session-scoped tool-result map, and the pending assistant block accumulator
with its first-seen timestamp. -/
structure PState where
  messages : List ConversationMessage
  tool_results : List (String × String)
  cur_blocks : List ConversationContentBlock
  cur_ts : Option String
deriving Repr

/-- The `flush_assistant` closure: if blocks are pending, emit them as one
assistant message (taking the buffered timestamp); otherwise do nothing. -/
def flushAssistant (st : PState) : PState :=
  if st.cur_blocks.isEmpty then st
  else
    { st with
      messages := st.messages ++ [⟨"assistant", st.cur_blocks, st.cur_ts⟩],
      cur_blocks := [],
      cur_ts := none }

/-- Scan of a user record's content array: store each `tool_result` block's
extracted text in the tool-result map under its `tool_use_id`. -/
def userBlocksScan (m : List (String × String)) (blocks : List InBlock) :
    List (String × String) :=
  blocks.foldl
    (fun acc b =>
      if b.btype = "tool_result" then
        match b.tool_use_id with
        | some tid => rmInsert acc tid (extract_tool_result_text b.rcontent)
        | none => acc
      else acc)
    m

/-- Accumulation of an assistant record's content array onto the pending
blocks: `text` elements become `Text` blocks (whitespace-only dropped),
`tool_use` elements become `ToolUse` blocks with deep-truncated input, and
any other element type (e.g. thinking) is dropped. -/
def assistantBlocks (cur : List ConversationContentBlock) (blocks : List InBlock) :
    List ConversationContentBlock :=
  blocks.foldl
    (fun acc b =>
      if b.btype = "text" then
        match b.text with
        | some t => if (trimChars t.data).isEmpty then acc else acc ++ [.Text t]
        | none => acc
      else if b.btype = "tool_use" then
        acc ++ [.ToolUse (b.id.getD "") (b.name.getD "unknown")
          (truncate_json_value 500 (b.input.getD .null))]
      else acc)
    cur

/-- Loop body of the first pass of `parse_transcript_to_conversation`. -/
def processEntry (st : PState) (e : TEntry) : PState :=
  let ty := entryType e
  if ty = "user" ∨ ty = "human" then
    let st1 := flushAssistant st
    match e.content with
    | .str text =>
      if (trimChars text.data).isEmpty then st1
      else
        { st1 with
          messages := st1.messages ++ [⟨"user", [.Text text], e.timestamp⟩] }
    | .arr blocks => { st1 with tool_results := userBlocksScan st1.tool_results blocks }
    | .missing => st1
  else if ty = "assistant" then
    let st1 := if st.cur_ts.isNone then { st with cur_ts := e.timestamp } else st
    match e.content with
    | .arr blocks => { st1 with cur_blocks := assistantBlocks st1.cur_blocks blocks }
    | .str text =>
      if (trimChars text.data).isEmpty then st1
      else { st1 with cur_blocks := st1.cur_blocks ++ [.Text text] }
    | .missing => st1
  else st

/-- Initial state of the first pass. -/
def initPState : PState := ⟨[], [], [], none⟩

/-- The full first pass: fold all entries, then flush any remaining pending
assistant blocks. -/
def runPass (entries : List TEntry) : PState :=
  flushAssistant (entries.foldl processEntry initPState)

/-- Second pass over one assistant message's blocks: after every `ToolUse`
whose id is in the map, splice a `ToolResult` block and consume the entry;
returns the rewritten blocks and the remaining map. -/
def weaveBlocks : List ConversationContentBlock → List (String × String) →
    List ConversationContentBlock × List (String × String)
  | [], m => ([], m)
  | .ToolUse tid nm inp :: rest, m =>
    match rmLookup m tid with
    | some r =>
      (.ToolUse tid nm inp :: .ToolResult tid r :: (weaveBlocks rest (rmErase m tid)).1,
       (weaveBlocks rest (rmErase m tid)).2)
    | none =>
      (.ToolUse tid nm inp :: (weaveBlocks rest m).1, (weaveBlocks rest m).2)
  | b :: rest, m => (b :: (weaveBlocks rest m).1, (weaveBlocks rest m).2)

/-- Second pass over the completed messages: assistant messages are rewritten
by `weaveBlocks` (threading the map), other messages pass through. -/
def weaveMessages : List ConversationMessage → List (String × String) →
    List ConversationMessage
  | [], _ => []
  | msg :: rest, m =>
    if msg.role = "assistant" then
      ⟨msg.role, (weaveBlocks msg.content m).1, msg.timestamp⟩
        :: weaveMessages rest (weaveBlocks msg.content m).2
    else msg :: weaveMessages rest m

/-- Full reconstruction of the final message list: first pass, then
tool-result pairing. -/
def reconstructMessages (entries : List TEntry) : List ConversationMessage :=
  let st := runPass entries
  weaveMessages st.messages st.tool_results

/-- Paginated conversation response (`ConversationDto` in src/server/dto.rs). -/
structure ConversationDto where
  messages : List ConversationMessage
  total_entries : ℕ
  has_transcript : Bool
  page : ℕ
  page_size : ℕ
  has_more : Bool
deriving Repr

/-- The pagination slice of `parse_transcript_to_conversation`:
`final_messages[start..end]` with `start = page * page_size` and
`end = min(start + page_size, total)`, empty when `start` is out of range. -/
def paginate (msgs : List ConversationMessage) (page page_size : ℕ) :
    List ConversationMessage :=
  let total := msgs.length
  let start := page * page_size
  let endIdx := min (start + page_size) total
  if start < total then (msgs.take endIdx).drop start else []

/-- Transcript parsing endpoint (`parse_transcript_to_conversation`), over the
already-decoded entry list. -/
def parse_transcript_to_conversation (entries : List TEntry)
    (page page_size : ℕ) : ConversationDto :=
  let final := reconstructMessages entries
  let total := final.length
  let start := page * page_size
  let endIdx := min (start + page_size) total
  ⟨paginate final page page_size, total, true, page, page_size,
   decide (endIdx < total)⟩

/-- Auxiliary: the pagination slice is the standard drop-then-take window. -/
theorem paginate_eq_drop_take (msgs : List ConversationMessage)
    (page page_size : ℕ) :
    paginate msgs page page_size = (msgs.drop (page * page_size)).take page_size := by
  rw [paginate]
  by_cases h : page * page_size < msgs.length
  · rw [if_pos h]
    rw [List.drop_take]
    apply List.take_eq_take.mpr
    rw [List.length_drop]
    omega
  · rw [if_neg h]
    have : msgs.drop (page * page_size) = [] := by
      apply List.drop_eq_nil_of_le
      omega
    simp [this]

/-- C3: the returned page is exactly the slice
`[page*page_size, min(total, (page+1)*page_size))`; a page beyond the end is
empty rather than an error; every page has at most `page_size` messages; and
concatenating the pages `0, 1, …, n-1`, for any `n` whose pages cover the
whole list, yields the full reconstructed message list with no duplication
and no gaps. -/
theorem pagination_spec (entries : List TEntry) (page page_size : ℕ) :
    (parse_transcript_to_conversation entries page page_size).messages
        = ((reconstructMessages entries).take
            (min (reconstructMessages entries).length ((page + 1) * page_size))).drop
            (page * page_size)
    ∧ ((reconstructMessages entries).length ≤ page * page_size →
        (parse_transcript_to_conversation entries page page_size).messages = [])
    ∧ (parse_transcript_to_conversation entries page page_size).messages.length
        ≤ page_size
    ∧ (∀ n : ℕ, (reconstructMessages entries).length ≤ n * page_size →
        ((List.range n).map
            (fun i => (parse_transcript_to_conversation entries i page_size).messages)).flatten
          = reconstructMessages entries) := by
  have hmsgs : ∀ pg,
      (parse_transcript_to_conversation entries pg page_size).messages
        = ((reconstructMessages entries).drop (pg * page_size)).take page_size := by
    intro pg
    show paginate (reconstructMessages entries) pg page_size = _
    exact paginate_eq_drop_take _ pg page_size
  refine ⟨?_, ?_, ?_, ?_⟩
  · rw [hmsgs, List.drop_take]
    apply List.take_eq_take.mpr
    rw [List.length_drop]
    have hsm : (page + 1) * page_size = page * page_size + page_size := by ring
    omega
  · intro h
    rw [hmsgs]
    have : (reconstructMessages entries).drop (page * page_size) = [] :=
      List.drop_eq_nil_of_le h
    simp [this]
  · rw [hmsgs]
    have := List.length_take page_size ((reconstructMessages entries).drop (page * page_size))
    omega
  · intro n hn
    have hjoin : ∀ (k : ℕ),
        ((List.range k).map
            (fun i => (parse_transcript_to_conversation entries i page_size).messages)).flatten
          = (reconstructMessages entries).take (k * page_size) := by
      intro k
      induction k with
      | zero => simp
      | succ k ihk =>
        rw [List.range_succ, List.map_append, List.flatten_append]
        rw [ihk]
        simp only [List.map_cons, List.map_nil, List.flatten_cons, List.flatten_nil,
          List.append_nil]
        rw [hmsgs]
        rw [Nat.succ_mul, List.take_add]
    rw [hjoin n]
    exact List.take_of_length_le hn

/-- Concrete instance of `pagination_spec`: with no entries the reconstructed
list is empty, so page 0 of size 2 is empty and covered by 0 pages. -/
theorem pagination_spec_witness :
    (parse_transcript_to_conversation [] 0 2).messages = []
    ∧ ((List.range 0).map
        (fun i => (parse_transcript_to_conversation [] i 2).messages)).flatten
      = reconstructMessages [] := by
  obtain ⟨h1, h2, h3, h4⟩ := pagination_spec [] 0 2
  exact ⟨h2 (by simp [reconstructMessages, runPass, initPState, flushAssistant,
      weaveMessages]),
    h4 0 (by simp [reconstructMessages, runPass, initPState, flushAssistant,
      weaveMessages])⟩

/-- Demo assistant record with a single text block, used by the merging
scenario. -/
def demoAsst1 : TEntry :=
  ⟨some "assistant", none, some "2026-01-01T00:00:00Z",
   .arr [⟨"text", some "Hello", none, none, none, none, .other⟩]⟩

/-- Second demo assistant record, immediately following the first. -/
def demoAsst2 : TEntry :=
  ⟨some "assistant", none, some "2026-01-01T00:00:05Z",
   .arr [⟨"text", some "World", none, none, none, none, .other⟩]⟩

/-- C7: a run of consecutive assistant records emits no message boundary —
the first pass leaves the completed-message list untouched while the run
lasts, so the whole run is flushed later as at most one message; in
particular two consecutive single-text assistant records reconstruct as one
message with two `Text` blocks. -/
theorem assistant_run_merging (st : PState) (entries : List TEntry)
    (h : ∀ e ∈ entries, entryType e = "assistant") :
    (entries.foldl processEntry st).messages = st.messages
    ∧ (∀ st2 : PState,
        (flushAssistant st2).messages.length ≤ st2.messages.length + 1)
    ∧ reconstructMessages [demoAsst1, demoAsst2]
        = [⟨"assistant", [.Text "Hello", .Text "World"],
            some "2026-01-01T00:00:00Z"⟩] := by
  refine ⟨?_, ?_, ?_⟩
  · induction entries generalizing st with
    | nil => rfl
    | cons e rest ih =>
      have he : entryType e = "assistant" := h e (List.mem_cons_self e rest)
      have hrest : ∀ x ∈ rest, entryType x = "assistant" := fun x hx =>
        h x (List.mem_cons_of_mem e hx)
      rw [List.foldl_cons, ih (processEntry st e) hrest]
      have hne1 : ¬ (entryType e = "user" ∨ entryType e = "human") := by
        rw [he]; rintro (hc | hc) <;> exact absurd hc (by decide)
      rw [processEntry]
      simp only [hne1, if_false, he, if_pos]
      cases hts : st.cur_ts with
      | none =>
        cases e.content with
        | str text =>
          by_cases hemp : (trimChars text.data).isEmpty
          · simp [hemp, hts]
          · simp [hemp, hts]
        | arr blocks => simp [hts]
        | missing => simp [hts]
      | some ts0 =>
        cases e.content with
        | str text =>
          by_cases hemp : (trimChars text.data).isEmpty
          · simp [hemp, hts]
          · simp [hemp, hts]
        | arr blocks => simp [hts]
        | missing => simp [hts]
  · intro st2
    rw [flushAssistant]
    by_cases h2 : st2.cur_blocks.isEmpty
    · simp [h2]
    · simp [h2]
  · rfl

/-- Concrete instance of `assistant_run_merging`: folding a one-record
assistant run from the initial state emits no message. -/
theorem assistant_run_merging_witness :
    ([demoAsst1].foldl processEntry initPState).messages = initPState.messages :=
  (assistant_run_merging initPState [demoAsst1]
    (by intro e he; simp only [List.mem_singleton] at he; subst he; rfl)).1

/-! ## Tool-result pairing invariant -/

/-- Whether a block is a `ToolResult`. -/
def isRes : ConversationContentBlock → Bool
  | .ToolResult _ _ => true
  | _ => false

/-- Whether a block is a `ToolUse`. -/
def isUse : ConversationContentBlock → Bool
  | .ToolUse _ _ _ => true
  | _ => false

/-- Whether a block is a `ToolUse` with the given id. -/
def isUseOf (tid : String) : ConversationContentBlock → Bool
  | .ToolUse t _ _ => t == tid
  | _ => false

/-- Whether a block is a `ToolResult` with the given id. -/
def isResOf (tid : String) : ConversationContentBlock → Bool
  | .ToolResult t _ => t == tid
  | _ => false

/-- Adjacency well-formedness of a block list: every `ToolResult` is
immediately preceded by a `ToolUse` with the same id. -/
def resAdjacent : List ConversationContentBlock → Bool
  | [] => true
  | .ToolResult _ _ :: _ => false
  | .ToolUse tid _ _ :: .ToolResult tid2 _ :: rest2 => (tid2 == tid) && resAdjacent rest2
  | .ToolUse _ _ _ :: [] => true
  | .ToolUse _ _ _ :: b :: rest2 => resAdjacent (b :: rest2)
  | .Text _ :: rest => resAdjacent rest

/-- Number of `ToolResult` blocks with the given id across a message list. -/
def countResOf (tid : String) (msgs : List ConversationMessage) : ℕ :=
  (msgs.map (fun msg => msg.content.countP (isResOf tid))).sum

/-- Whether some message contains a `ToolUse` block with the given id. -/
def hasUseOf (tid : String) (msgs : List ConversationMessage) : Bool :=
  msgs.any (fun msg => msg.content.any (isUseOf tid))

/-- For the first `ToolUse` with the given id in a block list: whether the
next block of the same list is a `ToolResult` with that id (`none` when the
list has no such `ToolUse`). -/
def firstUseOkIn (tid : String) : List ConversationContentBlock → Option Bool
  | [] => none
  | b :: rest =>
    if isUseOf tid b then
      some (match rest with
            | r :: _ => isResOf tid r
            | [] => false)
    else firstUseOkIn tid rest

/-- For the first `ToolUse` with the given id in document order over the
whole message list: whether it is immediately followed, within its own
message, by a `ToolResult` with that id. -/
def firstUseOk (tid : String) : List ConversationMessage → Option Bool
  | [] => none
  | msg :: rest =>
    match firstUseOkIn tid msg.content with
    | some b => some b
    | none => firstUseOk tid rest

/-- Auxiliary: keys after `rmInsert` are the old keys plus the new one. -/
theorem rmInsert_keys_mem (m : List (String × String)) (k v x : String) :
    x ∈ (rmInsert m k v).map Prod.fst ↔ x ∈ m.map Prod.fst ∨ x = k := by
  induction m with
  | nil => simp [rmInsert]
  | cons kv rest ih =>
    obtain ⟨k0, v0⟩ := kv
    by_cases hk : k0 = k
    · rw [show rmInsert ((k0, v0) :: rest) k v = (k0, v) :: rest from by
        simp [rmInsert, hk]]
      simp only [List.map_cons, List.mem_cons]
      constructor
      · rintro (h | h)
        · exact Or.inl (Or.inl h)
        · exact Or.inl (Or.inr h)
      · rintro ((h | h) | h)
        · exact Or.inl h
        · exact Or.inr h
        · exact Or.inl (h.trans hk.symm)
    · rw [show rmInsert ((k0, v0) :: rest) k v = (k0, v0) :: rmInsert rest k v from by
        simp [rmInsert, hk]]
      simp only [List.map_cons, List.mem_cons, ih]
      tauto

/-- Auxiliary: `rmInsert` preserves uniqueness of keys. -/
theorem rmInsert_keys_nodup (m : List (String × String)) (k v : String)
    (h : (m.map Prod.fst).Nodup) : ((rmInsert m k v).map Prod.fst).Nodup := by
  induction m with
  | nil => simp [rmInsert]
  | cons kv rest ih =>
    obtain ⟨k0, v0⟩ := kv
    simp only [List.map_cons, List.nodup_cons] at h
    by_cases hk : k0 = k
    · rw [show rmInsert ((k0, v0) :: rest) k v = (k0, v) :: rest from by
        simp [rmInsert, hk]]
      simp only [List.map_cons, List.nodup_cons]
      exact h
    · rw [show rmInsert ((k0, v0) :: rest) k v = (k0, v0) :: rmInsert rest k v from by
        simp [rmInsert, hk]]
      simp only [List.map_cons, List.nodup_cons]
      refine ⟨?_, ih h.2⟩
      intro hmem
      rcases (rmInsert_keys_mem rest k v k0).mp hmem with hx | hx
      · exact h.1 hx
      · exact hk hx

/-- Auxiliary: keys after `rmErase` are among the old keys. -/
theorem rmErase_keys_subset (m : List (String × String)) (k x : String)
    (h : x ∈ (rmErase m k).map Prod.fst) : x ∈ m.map Prod.fst := by
  induction m with
  | nil => simpa [rmErase] using h
  | cons kv rest ih =>
    obtain ⟨k0, v0⟩ := kv
    by_cases hk : k0 = k
    · rw [show rmErase ((k0, v0) :: rest) k = rest from by simp [rmErase, hk]] at h
      simp only [List.map_cons, List.mem_cons]
      exact Or.inr h
    · rw [show rmErase ((k0, v0) :: rest) k = (k0, v0) :: rmErase rest k from by
        simp [rmErase, hk]] at h
      simp only [List.map_cons, List.mem_cons] at h ⊢
      rcases h with h | h
      · exact Or.inl h
      · exact Or.inr (ih h)

/-- Auxiliary: `rmErase` preserves uniqueness of keys. -/
theorem rmErase_keys_nodup (m : List (String × String)) (k : String)
    (h : (m.map Prod.fst).Nodup) : ((rmErase m k).map Prod.fst).Nodup := by
  induction m with
  | nil => simp [rmErase]
  | cons kv rest ih =>
    obtain ⟨k0, v0⟩ := kv
    simp only [List.map_cons, List.nodup_cons] at h
    by_cases hk : k0 = k
    · rw [show rmErase ((k0, v0) :: rest) k = rest from by simp [rmErase, hk]]
      exact h.2
    · rw [show rmErase ((k0, v0) :: rest) k = (k0, v0) :: rmErase rest k from by
        simp [rmErase, hk]]
      simp only [List.map_cons, List.nodup_cons]
      exact ⟨fun hmem => h.1 (rmErase_keys_subset rest k k0 hmem), ih h.2⟩

/-- Auxiliary: a key absent from the key set looks up to nothing. -/
theorem rmLookup_eq_none_of_not_mem (m : List (String × String)) (t : String)
    (h : t ∉ m.map Prod.fst) : rmLookup m t = none := by
  induction m with
  | nil => rfl
  | cons kv rest ih =>
    obtain ⟨k0, v0⟩ := kv
    simp only [List.map_cons, List.mem_cons] at h
    push_neg at h
    have hk : ¬ k0 = t := fun hh => h.1 hh.symm
    simp [rmLookup, hk, ih h.2]

/-- Auxiliary: erasing one key leaves lookups of other keys unchanged. -/
theorem lookup_rmErase_ne (m : List (String × String)) (k t : String)
    (h : k ≠ t) : rmLookup (rmErase m k) t = rmLookup m t := by
  induction m with
  | nil => simp [rmErase]
  | cons kv rest ih =>
    obtain ⟨k0, v0⟩ := kv
    by_cases hk : k0 = k
    · rw [show rmErase ((k0, v0) :: rest) k = rest from by simp [rmErase, hk]]
      have hne : ¬ k0 = t := fun hh => h (hk.symm.trans hh)
      simp [rmLookup, hne]
    · rw [show rmErase ((k0, v0) :: rest) k = (k0, v0) :: rmErase rest k from by
        simp [rmErase, hk]]
      by_cases ht : k0 = t
      · simp [rmLookup, ht]
      · simp [rmLookup, ht, ih]

/-- Auxiliary: with unique keys, erasing a key removes it from the map. -/
theorem lookup_rmErase_self (m : List (String × String)) (t : String)
    (h : (m.map Prod.fst).Nodup) : rmLookup (rmErase m t) t = none := by
  induction m with
  | nil => simp [rmErase, rmLookup]
  | cons kv rest ih =>
    obtain ⟨k0, v0⟩ := kv
    simp only [List.map_cons, List.nodup_cons] at h
    by_cases hk : k0 = t
    · rw [show rmErase ((k0, v0) :: rest) t = rest from by simp [rmErase, hk]]
      subst hk
      exact rmLookup_eq_none_of_not_mem rest k0 h.1
    · rw [show rmErase ((k0, v0) :: rest) t = (k0, v0) :: rmErase rest t from by
        simp [rmErase, hk]]
      simp [rmLookup, hk, ih h.2]

/-- Auxiliary: erasing never makes an absent key present. -/
theorem lookup_rmErase_none (m : List (String × String)) (k t : String)
    (h : rmLookup m t = none) : rmLookup (rmErase m k) t = none := by
  induction m with
  | nil => simpa [rmErase] using h
  | cons kv rest ih =>
    obtain ⟨k0, v0⟩ := kv
    have hne : ¬ k0 = t := by
      intro hh
      simp [rmLookup, hh] at h
    have hrest : rmLookup rest t = none := by
      simpa [rmLookup, hne] using h
    by_cases hk : k0 = k
    · rw [show rmErase ((k0, v0) :: rest) k = rest from by simp [rmErase, hk]]
      exact hrest
    · rw [show rmErase ((k0, v0) :: rest) k = (k0, v0) :: rmErase rest k from by
        simp [rmErase, hk]]
      simp [rmLookup, hne, ih hrest]

/-- Auxiliary: weaving preserves which `ToolUse` ids occur in a block list. -/
theorem weaveBlocks_any_use (tid : String) :
    ∀ (l : List ConversationContentBlock) (m : List (String × String)),
    (weaveBlocks l m).1.any (isUseOf tid) = l.any (isUseOf tid) := by
  intro l
  induction l with
  | nil => intro m; rfl
  | cons b rest ih =>
    intro m
    cases b with
    | Text t => simp [weaveBlocks, List.any_cons, isUseOf, ih]
    | ToolResult t0 r0 => simp [weaveBlocks, List.any_cons, isUseOf, ih]
    | ToolUse t0 nm inp =>
      cases hlk : rmLookup m t0 with
      | none => simp [weaveBlocks, hlk, List.any_cons, ih]
      | some r => simp [weaveBlocks, hlk, List.any_cons, isUseOf, ih]

/-- Auxiliary: weaving never adds a key to the tool-result map. -/
theorem weaveBlocks_map_none (tid : String) :
    ∀ (l : List ConversationContentBlock) (m : List (String × String)),
    rmLookup m tid = none → rmLookup (weaveBlocks l m).2 tid = none := by
  intro l
  induction l with
  | nil => intro m h; exact h
  | cons b rest ih =>
    intro m h
    cases b with
    | Text t => simpa [weaveBlocks] using ih m h
    | ToolResult t0 r0 => simpa [weaveBlocks] using ih m h
    | ToolUse t0 nm inp =>
      cases hlk : rmLookup m t0 with
      | none => simpa [weaveBlocks, hlk] using ih m h
      | some r =>
        simpa [weaveBlocks, hlk] using
          ih (rmErase m t0) (lookup_rmErase_none m t0 tid h)

/-- Auxiliary: weaving preserves uniqueness of the map keys. -/
theorem weaveBlocks_map_nodup :
    ∀ (l : List ConversationContentBlock) (m : List (String × String)),
    (m.map Prod.fst).Nodup → ((weaveBlocks l m).2.map Prod.fst).Nodup := by
  intro l
  induction l with
  | nil => intro m h; exact h
  | cons b rest ih =>
    intro m h
    cases b with
    | Text t => simpa [weaveBlocks] using ih m h
    | ToolResult t0 r0 => simpa [weaveBlocks] using ih m h
    | ToolUse t0 nm inp =>
      cases hlk : rmLookup m t0 with
      | none => simpa [weaveBlocks, hlk] using ih m h
      | some r =>
        simpa [weaveBlocks, hlk] using ih (rmErase m t0) (rmErase_keys_nodup m t0 h)

/-- Auxiliary: weaving a list that contains no `ToolUse` with an id leaves
that id's map entry untouched. -/
theorem weaveBlocks_map_nouse (tid : String) :
    ∀ (l : List ConversationContentBlock) (m : List (String × String)),
    l.any (isUseOf tid) = false →
    rmLookup (weaveBlocks l m).2 tid = rmLookup m tid := by
  intro l
  induction l with
  | nil => intro m _; rfl
  | cons b rest ih =>
    intro m hany
    rw [List.any_cons] at hany
    have hb : isUseOf tid b = false := by
      cases hu : isUseOf tid b with
      | false => rfl
      | true => rw [hu] at hany; simp at hany
    have hrest : rest.any (isUseOf tid) = false := by
      cases hr : rest.any (isUseOf tid) with
      | false => rfl
      | true => rw [hr] at hany; simp at hany
    cases b with
    | Text t => simpa [weaveBlocks] using ih m hrest
    | ToolResult t0 r0 => simpa [weaveBlocks] using ih m hrest
    | ToolUse t0 nm inp =>
      have ht0 : t0 ≠ tid := by
        intro hh
        rw [isUseOf, hh] at hb
        simp at hb
      cases hlk : rmLookup m t0 with
      | none => simpa [weaveBlocks, hlk] using ih m hrest
      | some r =>
        rw [show (weaveBlocks (ConversationContentBlock.ToolUse t0 nm inp :: rest) m).2
            = (weaveBlocks rest (rmErase m t0)).2 from by simp [weaveBlocks, hlk]]
        rw [ih (rmErase m t0) hrest]
        exact lookup_rmErase_ne m t0 tid ht0

/-- Auxiliary: once a `ToolUse` consumes an id, the id is gone from the map
produced by the weave. -/
theorem weaveBlocks_map_consumed (tid : String) :
    ∀ (l : List ConversationContentBlock) (m : List (String × String)),
    (m.map Prod.fst).Nodup → (rmLookup m tid).isSome = true →
    l.any (isUseOf tid) = true →
    rmLookup (weaveBlocks l m).2 tid = none := by
  intro l
  induction l with
  | nil => intro m _ _ hany; simp at hany
  | cons b rest ih =>
    intro m hnd hsome hany
    rw [List.any_cons] at hany
    cases b with
    | Text t =>
      have hrest : rest.any (isUseOf tid) = true := by simpa [isUseOf] using hany
      simpa [weaveBlocks] using ih m hnd hsome hrest
    | ToolResult t0 r0 =>
      have hrest : rest.any (isUseOf tid) = true := by simpa [isUseOf] using hany
      simpa [weaveBlocks] using ih m hnd hsome hrest
    | ToolUse t0 nm inp =>
      by_cases ht0 : t0 = tid
      · subst ht0
        cases hlk : rmLookup m t0 with
        | none => rw [hlk] at hsome; simp at hsome
        | some r =>
          rw [show (weaveBlocks (ConversationContentBlock.ToolUse t0 nm inp :: rest) m).2
              = (weaveBlocks rest (rmErase m t0)).2 from by simp [weaveBlocks, hlk]]
          exact weaveBlocks_map_none t0 rest (rmErase m t0)
            (lookup_rmErase_self m t0 hnd)
      · have hrest : rest.any (isUseOf tid) = true := by
          have huse : isUseOf tid (ConversationContentBlock.ToolUse t0 nm inp) = false := by
            rw [isUseOf]
            simpa using ht0
          simpa [huse] using hany
        cases hlk : rmLookup m t0 with
        | none => simpa [weaveBlocks, hlk] using ih m hnd hsome hrest
        | some r =>
          rw [show (weaveBlocks (ConversationContentBlock.ToolUse t0 nm inp :: rest) m).2
              = (weaveBlocks rest (rmErase m t0)).2 from by simp [weaveBlocks, hlk]]
          refine ih (rmErase m t0) (rmErase_keys_nodup m t0 hnd) ?_ hrest
          rw [lookup_rmErase_ne m t0 tid ht0]
          exact hsome

/-- Auxiliary: the number of `ToolResult` blocks with a given id produced by
weaving a result-free block list is one exactly when the id is in the map and
some `ToolUse` carries it, and zero otherwise. -/
theorem weaveBlocks_count (tid : String) :
    ∀ (l : List ConversationContentBlock) (m : List (String × String)),
    (∀ b ∈ l, isRes b = false) → (m.map Prod.fst).Nodup →
    (weaveBlocks l m).1.countP (isResOf tid)
      = (if (rmLookup m tid).isSome && l.any (isUseOf tid) then 1 else 0) := by
  intro l
  induction l with
  | nil => intro m _ _; simp [weaveBlocks]
  | cons b rest ih =>
    intro m hno hnd
    have hnorest : ∀ x ∈ rest, isRes x = false := fun x hx =>
      hno x (List.mem_cons_of_mem b hx)
    cases b with
    | Text t =>
      rw [show (weaveBlocks (ConversationContentBlock.Text t :: rest) m).1
          = ConversationContentBlock.Text t :: (weaveBlocks rest m).1 from by
            simp [weaveBlocks]]
      rw [List.countP_cons, ih m hnorest hnd]
      simp [isResOf, isUseOf, List.any_cons]
    | ToolResult t0 r0 =>
      have := hno (ConversationContentBlock.ToolResult t0 r0) (List.mem_cons_self _ _)
      rw [isRes] at this
      exact absurd this (by simp)
    | ToolUse t0 nm inp =>
      cases hlk : rmLookup m t0 with
      | none =>
        rw [show (weaveBlocks (ConversationContentBlock.ToolUse t0 nm inp :: rest) m).1
            = ConversationContentBlock.ToolUse t0 nm inp :: (weaveBlocks rest m).1 from by
              simp [weaveBlocks, hlk]]
        rw [List.countP_cons, ih m hnorest hnd]
        by_cases ht0 : t0 = tid
        · subst ht0
          rw [hlk]
          simp [isResOf]
        · have : isUseOf tid (ConversationContentBlock.ToolUse t0 nm inp) = false := by
            rw [isUseOf]
            simpa using ht0
          simp [isResOf, List.any_cons, this]
      | some r =>
        rw [show (weaveBlocks (ConversationContentBlock.ToolUse t0 nm inp :: rest) m).1
            = ConversationContentBlock.ToolUse t0 nm inp
              :: ConversationContentBlock.ToolResult t0 r
              :: (weaveBlocks rest (rmErase m t0)).1 from by simp [weaveBlocks, hlk]]
        rw [List.countP_cons, List.countP_cons,
          ih (rmErase m t0) hnorest (rmErase_keys_nodup m t0 hnd)]
        by_cases ht0 : t0 = tid
        · subst ht0
          rw [lookup_rmErase_self m t0 hnd]
          simp [isResOf, isUseOf, hlk, List.any_cons]
        · rw [lookup_rmErase_ne m t0 tid ht0]
          have hru : isResOf tid (ConversationContentBlock.ToolResult t0 r) = false := by
            rw [isResOf]
            simpa using ht0
          have huu : isUseOf tid (ConversationContentBlock.ToolUse t0 nm inp) = false := by
            rw [isUseOf]
            simpa using ht0
          simp [isResOf, isUseOf, hru, huu, List.any_cons, ht0]

/-- Auxiliary: a block list without any `ToolResult` is trivially
adjacency-well-formed. -/
theorem resAdjacent_of_noRes :
    ∀ (l : List ConversationContentBlock), (∀ b ∈ l, isRes b = false) →
    resAdjacent l = true := by
  intro l
  induction l with
  | nil => intro _; rfl
  | cons b rest ih =>
    intro hno
    have hnorest : ∀ x ∈ rest, isRes x = false := fun x hx =>
      hno x (List.mem_cons_of_mem b hx)
    cases b with
    | Text t => simpa [resAdjacent] using ih hnorest
    | ToolResult t0 r0 =>
      have := hno (ConversationContentBlock.ToolResult t0 r0) (List.mem_cons_self _ _)
      rw [isRes] at this
      exact absurd this (by simp)
    | ToolUse t0 nm inp =>
      cases rest with
      | nil => rfl
      | cons b2 rest2 =>
        have hb2 : isRes b2 = false :=
          hnorest b2 (List.mem_cons_self b2 rest2)
        cases b2 with
        | Text t2 => simpa [resAdjacent] using ih hnorest
        | ToolUse t2 nm2 inp2 => simpa [resAdjacent] using ih hnorest
        | ToolResult t2 r2 => rw [isRes] at hb2; exact absurd hb2 (by simp)

/-- Auxiliary: weaving keeps the head block of a nonempty list. -/
theorem weaveBlocks_head (b : ConversationContentBlock)
    (rest : List ConversationContentBlock) (m : List (String × String)) :
    ∃ tail, (weaveBlocks (b :: rest) m).1 = b :: tail := by
  cases b with
  | Text t => exact ⟨(weaveBlocks rest m).1, by simp [weaveBlocks]⟩
  | ToolResult t0 r0 => exact ⟨(weaveBlocks rest m).1, by simp [weaveBlocks]⟩
  | ToolUse t0 nm inp =>
    cases hlk : rmLookup m t0 with
    | none => exact ⟨(weaveBlocks rest m).1, by simp [weaveBlocks, hlk]⟩
    | some r =>
      exact ⟨ConversationContentBlock.ToolResult t0 r
        :: (weaveBlocks rest (rmErase m t0)).1, by simp [weaveBlocks, hlk]⟩

/-- Auxiliary: the weave output of a result-free block list is
adjacency-well-formed — every spliced `ToolResult` sits immediately after
its `ToolUse`. -/
theorem weaveBlocks_resAdjacent :
    ∀ (l : List ConversationContentBlock) (m : List (String × String)),
    (∀ b ∈ l, isRes b = false) → resAdjacent (weaveBlocks l m).1 = true := by
  intro l
  induction l with
  | nil => intro m _; rfl
  | cons b rest ih =>
    intro m hno
    have hnorest : ∀ x ∈ rest, isRes x = false := fun x hx =>
      hno x (List.mem_cons_of_mem b hx)
    cases b with
    | Text t =>
      rw [show (weaveBlocks (ConversationContentBlock.Text t :: rest) m).1
          = ConversationContentBlock.Text t :: (weaveBlocks rest m).1 from by
            simp [weaveBlocks]]
      simpa [resAdjacent] using ih m hnorest
    | ToolResult t0 r0 =>
      have := hno (ConversationContentBlock.ToolResult t0 r0) (List.mem_cons_self _ _)
      rw [isRes] at this
      exact absurd this (by simp)
    | ToolUse t0 nm inp =>
      cases hlk : rmLookup m t0 with
      | some r =>
        rw [show (weaveBlocks (ConversationContentBlock.ToolUse t0 nm inp :: rest) m).1
            = ConversationContentBlock.ToolUse t0 nm inp
              :: ConversationContentBlock.ToolResult t0 r
              :: (weaveBlocks rest (rmErase m t0)).1 from by simp [weaveBlocks, hlk]]
        rw [resAdjacent]
        simp only [beq_self_eq_true, Bool.true_and]
        exact ih (rmErase m t0) hnorest
      | none =>
        rw [show (weaveBlocks (ConversationContentBlock.ToolUse t0 nm inp :: rest) m).1
            = ConversationContentBlock.ToolUse t0 nm inp :: (weaveBlocks rest m).1 from by
              simp [weaveBlocks, hlk]]
        cases rest with
        | nil => rfl
        | cons b2 rest2 =>
          obtain ⟨tail, htail⟩ := weaveBlocks_head b2 rest2 m
          rw [htail]
          have hb2 : isRes b2 = false := hnorest b2 (List.mem_cons_self b2 rest2)
          have hadj : resAdjacent (b2 :: tail) = true := by
            rw [← htail]
            exact ih m hnorest
          cases b2 with
          | Text t2 => simpa [resAdjacent] using hadj
          | ToolUse t2 nm2 inp2 => simpa [resAdjacent] using hadj
          | ToolResult t2 r2 => rw [isRes] at hb2; exact absurd hb2 (by simp)

/-- Auxiliary: unfolding of `firstUseOkIn` over a cons cell. -/
theorem firstUseOkIn_cons (tid : String) (b : ConversationContentBlock)
    (rest : List ConversationContentBlock) :
    firstUseOkIn tid (b :: rest)
      = if isUseOf tid b then
          some (match rest with | r :: _ => isResOf tid r | [] => false)
        else firstUseOkIn tid rest := rfl

/-- Auxiliary: a list with no `ToolUse` of an id has no first use of it. -/
theorem firstUseOkIn_eq_none (tid : String) :
    ∀ (l : List ConversationContentBlock), l.any (isUseOf tid) = false →
    firstUseOkIn tid l = none := by
  intro l
  induction l with
  | nil => intro _; rfl
  | cons b rest ih =>
    intro hany
    rw [List.any_cons] at hany
    have hb : isUseOf tid b = false := by
      cases hu : isUseOf tid b with
      | false => rfl
      | true => rw [hu] at hany; simp at hany
    have hrest : rest.any (isUseOf tid) = false := by
      cases hr : rest.any (isUseOf tid) with
      | false => rfl
      | true => rw [hr] at hany; simp at hany
    rw [firstUseOkIn_cons, hb]
    simpa using ih hrest

/-- Auxiliary: if the id is available in the map and some `ToolUse` in a
result-free block list carries it, the weave leaves the first such `ToolUse`
immediately followed by a matching `ToolResult`. -/
theorem weaveBlocks_firstUse (tid : String) :
    ∀ (l : List ConversationContentBlock) (m : List (String × String)),
    (∀ b ∈ l, isRes b = false) → (rmLookup m tid).isSome = true →
    l.any (isUseOf tid) = true →
    firstUseOkIn tid (weaveBlocks l m).1 = some true := by
  intro l
  induction l with
  | nil => intro m _ _ hany; simp at hany
  | cons b rest ih =>
    intro m hno hsome hany
    rw [List.any_cons] at hany
    have hnorest : ∀ x ∈ rest, isRes x = false := fun x hx =>
      hno x (List.mem_cons_of_mem b hx)
    cases b with
    | Text t =>
      have hrest : rest.any (isUseOf tid) = true := by simpa [isUseOf] using hany
      rw [show (weaveBlocks (ConversationContentBlock.Text t :: rest) m).1
          = ConversationContentBlock.Text t :: (weaveBlocks rest m).1 from by
            simp [weaveBlocks]]
      rw [firstUseOkIn_cons,
        show isUseOf tid (ConversationContentBlock.Text t) = false from rfl]
      simpa using ih m hnorest hsome hrest
    | ToolResult t0 r0 =>
      have := hno (ConversationContentBlock.ToolResult t0 r0) (List.mem_cons_self _ _)
      rw [isRes] at this
      exact absurd this (by simp)
    | ToolUse t0 nm inp =>
      by_cases ht0 : t0 = tid
      · subst ht0
        cases hlk : rmLookup m t0 with
        | none => rw [hlk] at hsome; simp at hsome
        | some r =>
          rw [show (weaveBlocks (ConversationContentBlock.ToolUse t0 nm inp :: rest) m).1
              = ConversationContentBlock.ToolUse t0 nm inp
                :: ConversationContentBlock.ToolResult t0 r
                :: (weaveBlocks rest (rmErase m t0)).1 from by simp [weaveBlocks, hlk]]
          rw [firstUseOkIn_cons]
          simp [isUseOf, isResOf]
      · have hrest : rest.any (isUseOf tid) = true := by
          have huse : isUseOf tid (ConversationContentBlock.ToolUse t0 nm inp) = false := by
            rw [isUseOf]
            simpa using ht0
          simpa [huse] using hany
        have huse : isUseOf tid (ConversationContentBlock.ToolUse t0 nm inp) = false := by
          rw [isUseOf]
          simpa using ht0
        cases hlk : rmLookup m t0 with
        | none =>
          rw [show (weaveBlocks (ConversationContentBlock.ToolUse t0 nm inp :: rest) m).1
              = ConversationContentBlock.ToolUse t0 nm inp :: (weaveBlocks rest m).1 from by
                simp [weaveBlocks, hlk]]
          rw [firstUseOkIn_cons, huse]
          simpa using ih m hnorest hsome hrest
        | some r =>
          rw [show (weaveBlocks (ConversationContentBlock.ToolUse t0 nm inp :: rest) m).1
              = ConversationContentBlock.ToolUse t0 nm inp
                :: ConversationContentBlock.ToolResult t0 r
                :: (weaveBlocks rest (rmErase m t0)).1 from by simp [weaveBlocks, hlk]]
          rw [firstUseOkIn_cons, huse]
          simp only [Bool.false_eq_true, if_false]
          rw [firstUseOkIn_cons,
            show isUseOf tid (ConversationContentBlock.ToolResult t0 r) = false from rfl]
          simp only [Bool.false_eq_true, if_false]
          refine ih (rmErase m t0) hnorest ?_ hrest
          rw [lookup_rmErase_ne m t0 tid ht0]
          exact hsome

/-- Well-formedness of a first-pass message: no `ToolResult` blocks yet, and
`ToolUse` blocks only inside assistant messages. -/
def msgOk (msg : ConversationMessage) : Bool :=
  msg.content.all (fun b => !isRes b)
    && (msg.role == "assistant" || msg.content.all (fun b => !isUse b))

/-- Auxiliary: a well-formed message has no `ToolResult` blocks. -/
theorem msgOk_noRes (msg : ConversationMessage) (h : msgOk msg = true) :
    ∀ b ∈ msg.content, isRes b = false := by
  intro b hb
  rw [msgOk, Bool.and_eq_true] at h
  have := (List.all_eq_true.mp h.1) b hb
  simpa using this

/-- Auxiliary: a well-formed non-assistant message has no `ToolUse` of any
id. -/
theorem msgOk_nonassistant_nouse (tid : String) (msg : ConversationMessage)
    (h : msgOk msg = true) (hr : ¬ msg.role = "assistant") :
    msg.content.any (isUseOf tid) = false := by
  rw [msgOk, Bool.and_eq_true, Bool.or_eq_true] at h
  rcases h.2 with hrole | hall
  · exact absurd (by simpa using hrole) hr
  · cases hany : msg.content.any (isUseOf tid) with
    | false => rfl
    | true =>
      obtain ⟨b, hb, hub⟩ := List.any_eq_true.mp hany
      have := (List.all_eq_true.mp hall) b hb
      cases b with
      | Text t =>
        rw [show isUseOf tid (ConversationContentBlock.Text t) = false from rfl] at hub
        simp at hub
      | ToolResult t0 r0 =>
        rw [show isUseOf tid (ConversationContentBlock.ToolResult t0 r0) = false
          from rfl] at hub
        simp at hub
      | ToolUse t0 nm inp => rw [isUse] at this; exact absurd this (by simp)

/-- Auxiliary: zero `ToolResult` count for a result-free block list. -/
theorem countP_isResOf_eq_zero (tid : String) (l : List ConversationContentBlock)
    (h : ∀ b ∈ l, isRes b = false) : l.countP (isResOf tid) = 0 := by
  rw [List.countP_eq_zero]
  intro b hb hres
  have := h b hb
  cases b with
  | Text t =>
    rw [show isResOf tid (ConversationContentBlock.Text t) = false from rfl] at hres
    simp at hres
  | ToolUse t0 nm inp =>
    rw [show isResOf tid (ConversationContentBlock.ToolUse t0 nm inp) = false
      from rfl] at hres
    simp at hres
  | ToolResult t0 r0 => rw [isRes] at this; exact absurd this (by simp)

/-- Auxiliary: unfolding of `firstUseOk` over a cons cell. -/
theorem firstUseOk_cons (tid : String) (msg : ConversationMessage)
    (rest : List ConversationMessage) :
    firstUseOk tid (msg :: rest)
      = match firstUseOkIn tid msg.content with
        | some b => some b
        | none => firstUseOk tid rest := rfl

/-- Auxiliary: the second pass keeps every message adjacency-well-formed. -/
theorem weaveMessages_resAdjacent :
    ∀ (msgs : List ConversationMessage) (m : List (String × String)),
    (∀ msg ∈ msgs, msgOk msg = true) →
    ∀ msg2 ∈ weaveMessages msgs m, resAdjacent msg2.content = true := by
  intro msgs
  induction msgs with
  | nil => intro m _ msg2 h2; simp [weaveMessages] at h2
  | cons msg rest ih =>
    intro m hok msg2 h2
    have hokrest : ∀ x ∈ rest, msgOk x = true := fun x hx =>
      hok x (List.mem_cons_of_mem msg hx)
    have hokhead := hok msg (List.mem_cons_self msg rest)
    by_cases hrole : msg.role = "assistant"
    · rw [show weaveMessages (msg :: rest) m
          = ⟨msg.role, (weaveBlocks msg.content m).1, msg.timestamp⟩
            :: weaveMessages rest (weaveBlocks msg.content m).2 from by
            simp [weaveMessages, hrole]] at h2
      rcases List.mem_cons.mp h2 with h2 | h2
      · subst h2
        exact weaveBlocks_resAdjacent msg.content m (msgOk_noRes msg hokhead)
      · exact ih (weaveBlocks msg.content m).2 hokrest msg2 h2
    · rw [show weaveMessages (msg :: rest) m = msg :: weaveMessages rest m from by
        simp [weaveMessages, hrole]] at h2
      rcases List.mem_cons.mp h2 with h2 | h2
      · subst h2
        exact resAdjacent_of_noRes msg2.content (msgOk_noRes msg2 hokhead)
      · exact ih m hokrest msg2 h2

/-- Auxiliary: the second pass preserves which `ToolUse` ids occur. -/
theorem weaveMessages_hasUse (tid : String) :
    ∀ (msgs : List ConversationMessage) (m : List (String × String)),
    hasUseOf tid (weaveMessages msgs m) = hasUseOf tid msgs := by
  intro msgs
  induction msgs with
  | nil => intro m; rfl
  | cons msg rest ih =>
    intro m
    by_cases hrole : msg.role = "assistant"
    · rw [show weaveMessages (msg :: rest) m
          = ⟨msg.role, (weaveBlocks msg.content m).1, msg.timestamp⟩
            :: weaveMessages rest (weaveBlocks msg.content m).2 from by
            simp [weaveMessages, hrole]]
      simp only [hasUseOf, List.any_cons] at ih ⊢
      rw [weaveBlocks_any_use tid msg.content m, ih]
    · rw [show weaveMessages (msg :: rest) m = msg :: weaveMessages rest m from by
        simp [weaveMessages, hrole]]
      simp only [hasUseOf, List.any_cons] at ih ⊢
      rw [ih]

/-- Auxiliary: across the whole second pass, a stored id produces exactly one
`ToolResult` block when some `ToolUse` carries it, and none otherwise. -/
theorem weaveMessages_count (tid : String) :
    ∀ (msgs : List ConversationMessage) (m : List (String × String)),
    (∀ msg ∈ msgs, msgOk msg = true) → (m.map Prod.fst).Nodup →
    countResOf tid (weaveMessages msgs m)
      = (if (rmLookup m tid).isSome && hasUseOf tid msgs then 1 else 0) := by
  intro msgs
  induction msgs with
  | nil => intro m _ _; simp [weaveMessages, countResOf, hasUseOf]
  | cons msg rest ih =>
    intro m hok hnd
    have hokrest : ∀ x ∈ rest, msgOk x = true := fun x hx =>
      hok x (List.mem_cons_of_mem msg hx)
    have hokhead := hok msg (List.mem_cons_self msg rest)
    have hnores := msgOk_noRes msg hokhead
    by_cases hrole : msg.role = "assistant"
    · rw [show weaveMessages (msg :: rest) m
          = ⟨msg.role, (weaveBlocks msg.content m).1, msg.timestamp⟩
            :: weaveMessages rest (weaveBlocks msg.content m).2 from by
            simp [weaveMessages, hrole]]
      rw [countResOf, List.map_cons, List.sum_cons]
      rw [show (⟨msg.role, (weaveBlocks msg.content m).1, msg.timestamp⟩ :
          ConversationMessage).content = (weaveBlocks msg.content m).1 from rfl]
      rw [weaveBlocks_count tid msg.content m hnores hnd]
      rw [show (List.map (fun msg2 => List.countP (isResOf tid) msg2.content)
            (weaveMessages rest (weaveBlocks msg.content m).2)).sum
          = countResOf tid (weaveMessages rest (weaveBlocks msg.content m).2) from rfl]
      rw [ih (weaveBlocks msg.content m).2 hokrest
        (weaveBlocks_map_nodup msg.content m hnd)]
      simp only [hasUseOf, List.any_cons]
      by_cases hsome : (rmLookup m tid).isSome = true
      · by_cases hany : msg.content.any (isUseOf tid) = true
        · simp only [weaveBlocks_map_consumed tid msg.content m hnd hsome hany,
            hany, hsome]
          simp
        · have hany2 : msg.content.any (isUseOf tid) = false := by simpa using hany
          simp only [weaveBlocks_map_nouse tid msg.content m hany2, hany2]
          simp
      · have hnone : rmLookup m tid = none := by
          cases hv : rmLookup m tid with
          | none => rfl
          | some v => exact absurd (by simp [hv]) hsome
        simp only [weaveBlocks_map_none tid msg.content m hnone, hnone]
        simp
    · rw [show weaveMessages (msg :: rest) m = msg :: weaveMessages rest m from by
        simp [weaveMessages, hrole]]
      rw [countResOf, List.map_cons, List.sum_cons]
      rw [countP_isResOf_eq_zero tid msg.content hnores]
      rw [show (List.map (fun msg2 => List.countP (isResOf tid) msg2.content)
            (weaveMessages rest m)).sum
          = countResOf tid (weaveMessages rest m) from rfl]
      rw [ih m hokrest hnd]
      simp only [hasUseOf, List.any_cons,
        msgOk_nonassistant_nouse tid msg hokhead hrole]
      simp

/-- Auxiliary: across the whole second pass, when an id is stored and used,
the first `ToolUse` carrying it (in document order) ends up immediately
followed by a matching `ToolResult` inside the same message. -/
theorem weaveMessages_firstUse (tid : String) :
    ∀ (msgs : List ConversationMessage) (m : List (String × String)),
    (∀ msg ∈ msgs, msgOk msg = true) → (m.map Prod.fst).Nodup →
    (rmLookup m tid).isSome = true → hasUseOf tid msgs = true →
    firstUseOk tid (weaveMessages msgs m) = some true := by
  intro msgs
  induction msgs with
  | nil => intro m _ _ _ hu; simp [hasUseOf] at hu
  | cons msg rest ih =>
    intro m hok hnd hsome huse
    have hokrest : ∀ x ∈ rest, msgOk x = true := fun x hx =>
      hok x (List.mem_cons_of_mem msg hx)
    have hokhead := hok msg (List.mem_cons_self msg rest)
    rw [hasUseOf, List.any_cons] at huse
    by_cases hrole : msg.role = "assistant"
    · rw [show weaveMessages (msg :: rest) m
          = ⟨msg.role, (weaveBlocks msg.content m).1, msg.timestamp⟩
            :: weaveMessages rest (weaveBlocks msg.content m).2 from by
            simp [weaveMessages, hrole]]
      rw [firstUseOk_cons]
      cases hany : msg.content.any (isUseOf tid) with
      | true =>
        rw [show (⟨msg.role, (weaveBlocks msg.content m).1, msg.timestamp⟩ :
            ConversationMessage).content = (weaveBlocks msg.content m).1 from rfl]
        rw [weaveBlocks_firstUse tid msg.content m (msgOk_noRes msg hokhead) hsome hany]
      | false =>
        have husetail : hasUseOf tid rest = true := by
          simpa [hany, hasUseOf] using huse
        rw [show (⟨msg.role, (weaveBlocks msg.content m).1, msg.timestamp⟩ :
            ConversationMessage).content = (weaveBlocks msg.content m).1 from rfl]
        rw [firstUseOkIn_eq_none tid _
          (by rw [weaveBlocks_any_use tid msg.content m]; exact hany)]
        refine ih (weaveBlocks msg.content m).2 hokrest
          (weaveBlocks_map_nodup msg.content m hnd) ?_ husetail
        rw [weaveBlocks_map_nouse tid msg.content m hany]
        exact hsome
    · have hanyhead : msg.content.any (isUseOf tid) = false :=
        msgOk_nonassistant_nouse tid msg hokhead hrole
      have husetail : hasUseOf tid rest = true := by
        simpa [hanyhead, hasUseOf] using huse
      rw [show weaveMessages (msg :: rest) m = msg :: weaveMessages rest m from by
        simp [weaveMessages, hrole]]
      rw [firstUseOk_cons, firstUseOkIn_eq_none tid msg.content hanyhead]
      exact ih m hokrest hnd hsome husetail

/-- Invariant maintained by the first pass: unique tool-result keys, only
well-formed completed messages, and no `ToolResult` blocks in the pending
accumulator. -/
def InvP (st : PState) : Prop :=
  ((st.tool_results.map Prod.fst).Nodup)
  ∧ (∀ msg ∈ st.messages, msgOk msg = true)
  ∧ (∀ b ∈ st.cur_blocks, isRes b = false)

/-- Auxiliary: flushing the assistant accumulator preserves the invariant. -/
theorem flushAssistant_inv (st : PState) (h : InvP st) : InvP (flushAssistant st) := by
  obtain ⟨h1, h2, h3⟩ := h
  rw [flushAssistant]
  by_cases he : st.cur_blocks.isEmpty
  · rw [if_pos he]
    exact ⟨h1, h2, h3⟩
  · rw [if_neg he]
    refine ⟨h1, ?_, by simp⟩
    intro msg hmsg
    rcases List.mem_append.mp hmsg with hm | hm
    · exact h2 msg hm
    · rw [List.mem_singleton] at hm
      subst hm
      rw [msgOk]
      have hall : st.cur_blocks.all (fun b => !isRes b) = true := by
        rw [List.all_eq_true]
        intro b hb
        simp [h3 b hb]
      simp [hall]

/-- Auxiliary: scanning a user record's blocks preserves key uniqueness of
the tool-result map. -/
theorem userBlocksScan_nodup (blocks : List InBlock) :
    ∀ (m : List (String × String)), (m.map Prod.fst).Nodup →
    ((userBlocksScan m blocks).map Prod.fst).Nodup := by
  induction blocks with
  | nil => intro m h; exact h
  | cons b rest ih =>
    intro m h
    have hstep : (((if b.btype = "tool_result" then
        match b.tool_use_id with
        | some tid => rmInsert m tid (extract_tool_result_text b.rcontent)
        | none => m
      else m)).map Prod.fst).Nodup := by
      by_cases hb : b.btype = "tool_result"
      · rw [if_pos hb]
        cases hid : b.tool_use_id with
        | none => exact h
        | some tid => exact rmInsert_keys_nodup m tid _ h
      · rw [if_neg hb]
        exact h
    exact ih _ hstep

/-- Auxiliary: accumulating an assistant record's blocks never adds a
`ToolResult` block. -/
theorem assistantBlocks_noRes (blocks : List InBlock) :
    ∀ (cur : List ConversationContentBlock), (∀ x ∈ cur, isRes x = false) →
    ∀ x ∈ assistantBlocks cur blocks, isRes x = false := by
  induction blocks with
  | nil => intro cur h; exact h
  | cons b rest ih =>
    intro cur h
    have hstep : ∀ x ∈ (if b.btype = "text" then
        match b.text with
        | some t =>
          if (trimChars t.data).isEmpty then cur
          else cur ++ [ConversationContentBlock.Text t]
        | none => cur
      else if b.btype = "tool_use" then
        cur ++ [ConversationContentBlock.ToolUse (b.id.getD "") (b.name.getD "unknown")
          (truncate_json_value 500 (b.input.getD JsonVal.null))]
      else cur), isRes x = false := by
      by_cases hb : b.btype = "text"
      · rw [if_pos hb]
        cases ht : b.text with
        | none => exact h
        | some t =>
          dsimp only
          by_cases hemp : (trimChars t.data).isEmpty
          · rw [if_pos hemp]; exact h
          · rw [if_neg hemp]
            intro x hx
            rcases List.mem_append.mp hx with hx | hx
            · exact h x hx
            · rw [List.mem_singleton] at hx; subst hx; rfl
      · rw [if_neg hb]
        by_cases hb2 : b.btype = "tool_use"
        · rw [if_pos hb2]
          intro x hx
          rcases List.mem_append.mp hx with hx | hx
          · exact h x hx
          · rw [List.mem_singleton] at hx; subst hx; rfl
        · rw [if_neg hb2]; exact h
    exact ih _ hstep

/-- Auxiliary: one step of the first pass preserves the invariant. -/
theorem processEntry_inv (st : PState) (e : TEntry) (h : InvP st) :
    InvP (processEntry st e) := by
  obtain ⟨h1, h2, h3⟩ := h
  have hfl := flushAssistant_inv st ⟨h1, h2, h3⟩
  obtain ⟨f1, f2, f3⟩ := hfl
  rw [processEntry]
  by_cases hu : entryType e = "user" ∨ entryType e = "human"
  · rw [if_pos hu]
    cases hc : e.content with
    | str text =>
      dsimp only
      by_cases hemp : (trimChars text.data).isEmpty
      · rw [if_pos hemp]
        exact ⟨f1, f2, f3⟩
      · rw [if_neg hemp]
        refine ⟨f1, ?_, f3⟩
        intro msg hmsg
        rcases List.mem_append.mp hmsg with hm | hm
        · exact f2 msg hm
        · rw [List.mem_singleton] at hm
          subst hm
          rw [msgOk]
          simp [isRes, isUse]
    | arr blocks =>
      exact ⟨userBlocksScan_nodup blocks (flushAssistant st).tool_results f1, f2, f3⟩
    | missing => exact ⟨f1, f2, f3⟩
  · rw [if_neg hu]
    by_cases ha : entryType e = "assistant"
    · rw [if_pos ha]
      have hts : InvP (if st.cur_ts.isNone then { st with cur_ts := e.timestamp } else st) := by
        by_cases hn : st.cur_ts.isNone
        · rw [if_pos hn]; exact ⟨h1, h2, h3⟩
        · rw [if_neg hn]; exact ⟨h1, h2, h3⟩
      obtain ⟨g1, g2, g3⟩ := hts
      cases hc : e.content with
      | arr blocks =>
        exact ⟨g1, g2, assistantBlocks_noRes blocks _ g3⟩
      | str text =>
        dsimp only
        by_cases hemp : (trimChars text.data).isEmpty
        · rw [if_pos hemp]
          exact ⟨g1, g2, g3⟩
        · rw [if_neg hemp]
          refine ⟨g1, g2, ?_⟩
          intro x hx
          rcases List.mem_append.mp hx with hx | hx
          · exact g3 x hx
          · rw [List.mem_singleton] at hx; subst hx; rfl
      | missing => exact ⟨g1, g2, g3⟩
    · rw [if_neg ha]
      exact ⟨h1, h2, h3⟩

/-- Auxiliary: the full first pass establishes the invariant. -/
theorem runPass_inv (entries : List TEntry) : InvP (runPass entries) := by
  rw [runPass]
  have hfold : ∀ (es : List TEntry) (st : PState), InvP st →
      InvP (es.foldl processEntry st) := by
    intro es
    induction es with
    | nil => intro st h; exact h
    | cons e rest ih => intro st h; exact ih _ (processEntry_inv st e h)
  refine flushAssistant_inv _ (hfold entries initPState ?_)
  refine ⟨?_, ?_, ?_⟩ <;> simp [initPState]

/-- C1: in the final reconstructed message list, every `ToolResult` block
sits immediately after a `ToolUse` with the same id within the same message;
each stored result is consumed at most once; whenever a result is stored for
an id that some `ToolUse` carries, the first such `ToolUse` in document order
is immediately followed by the matching `ToolResult`; and no `ToolResult`
appears for an id that was never stored. -/
theorem tool_result_pairing (entries : List TEntry) (tid : String) :
    (∀ msg ∈ reconstructMessages entries, resAdjacent msg.content = true)
    ∧ countResOf tid (reconstructMessages entries) ≤ 1
    ∧ ((rmLookup (runPass entries).tool_results tid).isSome = true →
        hasUseOf tid (reconstructMessages entries) = true →
        firstUseOk tid (reconstructMessages entries) = some true)
    ∧ (rmLookup (runPass entries).tool_results tid = none →
        countResOf tid (reconstructMessages entries) = 0) := by
  obtain ⟨h1, h2, h3⟩ := runPass_inv entries
  have hrec : reconstructMessages entries
      = weaveMessages (runPass entries).messages (runPass entries).tool_results := rfl
  refine ⟨?_, ?_, ?_, ?_⟩
  · rw [hrec]
    exact weaveMessages_resAdjacent (runPass entries).messages
      (runPass entries).tool_results h2
  · rw [hrec, weaveMessages_count tid (runPass entries).messages
      (runPass entries).tool_results h2 h1]
    split <;> omega
  · intro hsome huse
    rw [hrec] at huse ⊢
    rw [weaveMessages_hasUse] at huse
    exact weaveMessages_firstUse tid _ _ h2 h1 hsome huse
  · intro hnone
    rw [hrec, weaveMessages_count tid _ _ h2 h1, hnone]
    simp

/-- Demo assistant record emitting a `tool_use` with id `t1`. -/
def demoUseEntry : TEntry :=
  ⟨some "assistant", none, some "2026-01-01T00:00:00Z",
   .arr [⟨"tool_use", none, some "t1", some "Bash", none, none, .other⟩]⟩

/-- Demo user record carrying the `tool_result` for id `t1`. -/
def demoResultEntry : TEntry :=
  ⟨some "user", none, some "2026-01-01T00:00:10Z",
   .arr [⟨"tool_result", none, none, none, none, some "t1", .str "ok"⟩]⟩

/-- Concrete instance of `tool_result_pairing`: in the use-then-result demo
log, the first `ToolUse` of `t1` is immediately followed by its result. -/
theorem tool_result_pairing_witness :
    firstUseOk "t1" (reconstructMessages [demoUseEntry, demoResultEntry]) = some true :=
  (tool_result_pairing [demoUseEntry, demoResultEntry] "t1").2.2.1 rfl rfl

end ClaudeDaily
